import Mathlib

/-!
Verification of the repository-ownership analysis engine of `git-tools`
(`src/ls-owners/src/main.rs`, `src/common/src/parallel.rs`,
`src/common/src/repo/discovery.rs`, `src/common/src/repo/info.rs`,
`src/common/src/git/url_parser.rs`).

Rust strings are modelled as Lean `String`, with all operations defined
over the underlying character list so that every definition evaluates
inside the kernel.  Rust `BTreeMap<String, _>` / `BTreeSet<String>` are
modelled as lists kept sorted (by code-point order, which on valid UTF-8
agrees with the byte order Rust uses) and without duplicate keys, via
ordered insertion.  External collaborators (the filesystem, `git`
subprocesses, the GitHub API) are parameters of the definitions that use
them, exactly at the points the Rust code calls out to them.
-/

namespace GitTools

/-! ## Character-list primitives (Rust `str` operations) -/

/-- Code-point comparison of two characters (Rust `char` ordering). -/
def charCmp (a b : Char) : Ordering := compare a.toNat b.toNat

/-- Lexicographic comparison of character lists; this is Rust `str::cmp`
(byte-wise comparison of UTF-8 agrees with code-point order). -/
def listCharCmp : List Char → List Char → Ordering
  | [], [] => .eq
  | [], _ :: _ => .lt
  | _ :: _, [] => .gt
  | a :: as, b :: bs =>
    match charCmp a b with
    | .eq => listCharCmp as bs
    | o => o

/-- Rust `str::cmp` on our string model. -/
def strCmp (a b : String) : Ordering := listCharCmp a.data b.data

/-- `isPref pre l` holds when `pre` is a prefix of `l`. -/
def isPref : List Char → List Char → Bool
  | [], _ => true
  | _ :: _, [] => false
  | a :: as, b :: bs => a == b && isPref as bs

/-- Rust `str::starts_with` with a string pattern. -/
def strStartsWith (s pat : String) : Bool := isPref pat.data s.data

/-- Rust `str::ends_with` with a string pattern. -/
def strEndsWith (s pat : String) : Bool := isPref pat.data.reverse s.data.reverse

/-- Rust `str::contains` with a string pattern (substring test). -/
def strContains (s pat : String) : Bool := s.data.tails.any (fun t => isPref pat.data t)

/-- Split a character list at every character satisfying `p`; pieces may be
empty, and the empty list splits into one empty piece (Rust `str::split`). -/
def splitChars (p : Char → Bool) : List Char → List (List Char)
  | [] => [[]]
  | c :: cs =>
    if p c then [] :: splitChars p cs
    else
      match splitChars p cs with
      | [] => [[c]]
      | piece :: rest => (c :: piece) :: rest

/-- Rust `str::split_whitespace`: the non-empty maximal runs between
whitespace characters. -/
def splitWhitespace (s : String) : List String :=
  ((splitChars Char.isWhitespace s.data).filter (fun t => t ≠ [])).map String.mk

/-- Drop whitespace from both ends of a character list. -/
def trimChars (cs : List Char) : List Char :=
  ((cs.dropWhile Char.isWhitespace).reverse.dropWhile Char.isWhitespace).reverse

/-- Rust `str::trim`. -/
def trimStr (s : String) : String := String.mk (trimChars s.data)

/-- Rust `str::trim_end` (used on `git` stdout). -/
def trimEndStr (s : String) : String :=
  String.mk (s.data.reverse.dropWhile Char.isWhitespace).reverse

/-- Rust `str::trim_start_matches('@')`: remove every leading `@`. -/
def trimStartAt (s : String) : String := String.mk (s.data.dropWhile (fun c => c == '@'))

/-- Rust `str::strip_prefix` with a string pattern. -/
def stripPrefixStr (s pat : String) : Option String :=
  if isPref pat.data s.data then some (String.mk (s.data.drop pat.data.length)) else none

/-- The stripping loop of Rust `str::trim_end_matches`, with the list
length as fuel: each round removes one copy of the non-empty suffix
`pat`, so `cs.length` rounds always suffice. -/
def trimEndMatchesLoop (pat : List Char) : Nat → List Char → List Char
  | 0, cs => cs
  | n + 1, cs =>
    if pat ≠ [] ∧ isPref pat.reverse cs.reverse then
      trimEndMatchesLoop pat n (cs.take (cs.length - pat.length))
    else cs

/-- Rust `str::trim_end_matches` with a string pattern: repeatedly remove
the suffix `pat` while present. -/
def trimEndMatchesChars (cs pat : List Char) : List Char :=
  trimEndMatchesLoop pat cs.length cs

/-- Rust `str::trim_end_matches` on strings. -/
def trimEndMatchesStr (s pat : String) : String :=
  String.mk (trimEndMatchesChars s.data pat.data)

/-! ## Ordered maps and sets (Rust `BTreeMap<String, _>`, `BTreeSet<String>`) -/

/-- The `BTreeMap<String, Vec<String>>` of CODEOWNERS entries, modelled as a
key-sorted duplicate-free association list. -/
abbrev Entries := List (String × List String)

/-- `BTreeMap::insert`: ordered insertion replacing an existing binding
(so a later insertion for the same pattern wins). -/
def mapInsert (k : String) (v : List String) : Entries → Entries
  | [] => [(k, v)]
  | (k', v') :: rest =>
    match strCmp k k' with
    | .lt => (k, v) :: (k', v') :: rest
    | .eq => (k, v) :: rest
    | .gt => (k', v') :: mapInsert k v rest

/-- `BTreeMap::get`. -/
def mapGet (m : Entries) (k : String) : Option (List String) :=
  match m.find? (fun kv => kv.1 == k) with
  | some kv => some kv.2
  | none => none

/-- `BTreeMap::contains_key`. -/
def mapContainsKey (m : Entries) (k : String) : Bool := m.any (fun kv => kv.1 == k)

/-- `BTreeSet<String>::insert`: ordered insertion without duplicates. -/
def setInsert (x : String) : List String → List String
  | [] => [x]
  | y :: ys =>
    match strCmp x y with
    | .lt => x :: y :: ys
    | .eq => y :: ys
    | .gt => y :: setInsert x ys

/-! ## Rust `str::lines` -/

/-- Strip one trailing carriage return from a line (part of `str::lines`). -/
def stripTrailingCR (cs : List Char) : List Char :=
  if cs.getLast? = some '\r' then cs.dropLast else cs

/-- Rust `str::lines`: split on newline characters; a final empty piece
produced by a trailing newline is dropped, and one trailing carriage
return is stripped from each line. -/
def rustLines (s : String) : List String :=
  if s.data = [] then []
  else
    let pieces := splitChars (fun c => c == '\n') s.data
    let pieces := if pieces.getLast? = some [] then pieces.dropLast else pieces
    pieces.map (fun cs => String.mk (stripTrailingCR cs))

/-! ## OwnershipParser (`ls-owners/src/main.rs`: `Ownership`, `load_ownership`) -/

/-- The `Ownership` enum of `ls-owners/src/main.rs`. -/
inductive Ownership where
  | Missing : Ownership
  | Empty : Ownership
  | Present (entries : Entries) : Ownership
deriving DecidableEq

/-- The regex `^\s*#` of `load_ownership`: the first character after any
leading whitespace is a `#`. -/
def reCommentMatch (s : String) : Bool :=
  match s.data.dropWhile Char.isWhitespace with
  | '#' :: _ => true
  | _ => false

/-- One iteration of the parsing loop of `load_ownership`
(`ls-owners/src/main.rs` lines 344-359): trim the raw line, skip blank
and comment lines and lines with fewer than two whitespace-separated
tokens, normalize the pattern `*` to `/`, strip leading `@` from owners,
and insert (later lines overwrite earlier ones for the same pattern). -/
def parseOwnershipLine (entries : Entries) (raw : String) : Entries :=
  if trimStr raw = "" then entries
  else if reCommentMatch (trimStr raw) then entries
  else
    match splitWhitespace (trimStr raw) with
    | [] => entries
    | [_] => entries
    | p :: owners =>
      mapInsert (if p = "*" then "/" else p) (owners.map trimStartAt) entries

/-- The full CODEOWNERS parse of `load_ownership`: fold the line parser
over the lines of the file content. -/
def parseCodeowners (content : String) : Entries :=
  (rustLines content).foldl parseOwnershipLine []

/-- `load_ownership` (`ls-owners/src/main.rs` lines 333-366).  The
filesystem is a parameter: `none` models an absent
`.github/CODEOWNERS`, `some (.error e)` a present but unreadable file,
and `some (.ok content)` a readable file with the given content. -/
def load_ownership (file : Option (Except String String)) : Except String Ownership :=
  match file with
  | none => .ok .Missing
  | some (.error e) => .error e
  | some (.ok content) =>
    if parseCodeowners content = [] then .ok .Empty
    else .ok (.Present (parseCodeowners content))

/-! ## CoverageEngine (`is_code_file`, `determine_unowned_paths`) -/

/-- Rust `Path::file_name` for the relative slash-separated paths handled
here: the last normal component (`.` components and empty components are
ignored; a path ending in `..` has no file name). -/
def fileNameOf (p : String) : Option String :=
  match ((splitChars (fun c => c == '/') p.data).filter
      (fun t => t ≠ [] ∧ t ≠ ['.'])).getLast? with
  | none => none
  | some t => if t = ['.', '.'] then none else some (String.mk t)

/-- Split a file name at its last dot: `some (stem, ext)` when a dot
exists, `none` otherwise. -/
def splitLastDot (cs : List Char) : Option (List Char × List Char) :=
  let rev := cs.reverse
  let after := rev.takeWhile (fun c => c ≠ '.')
  if after.length = rev.length then none
  else some ((rev.drop (after.length + 1)).reverse, after.reverse)

/-- Rust `Path::extension`: the portion of the file name after the final
dot, or `none` when there is no dot or the only dot is leading. -/
def extensionOf (p : String) : Option String :=
  match fileNameOf p with
  | none => none
  | some name =>
    match splitLastDot name.data with
    | none => none
    | some (stem, ext) => if stem = [] then none else some (String.mk ext)

/-- ASCII lower-casing of one character (the extension allow-list is
ASCII, so this agrees with Rust `str::to_lowercase` on every relevant
comparison). -/
def asciiLower (c : Char) : Char :=
  if 'A' ≤ c ∧ c ≤ 'Z' then Char.ofNat (c.toNat + 32) else c

/-- ASCII lower-casing of a string. -/
def strLower (s : String) : String := String.mk (s.data.map asciiLower)

/-- `is_code_file` (`ls-owners/src/main.rs` lines 566-580): `Dockerfile`
and `Makefile` unconditionally, otherwise a case-insensitive extension
allow-list. -/
def is_code_file (p : String) : Bool :=
  match fileNameOf p with
  | none => false
  | some name =>
    if name = "Dockerfile" ∨ name = "Makefile" then true
    else
      match extensionOf p with
      | none => false
      | some e =>
        let ext := strLower e
        ext = "py" ∨ ext = "js" ∨ ext = "jsx" ∨ ext = "ts" ∨ ext = "tsx" ∨
        ext = "css" ∨ ext = "html" ∨ ext = "tf" ∨ ext = "yaml" ∨
        ext = "yml" ∨ ext = "toml" ∨ ext = "tpl"

/-- The `dir` computation of `determine_unowned_paths` for one
uncovered relative path (`ls-owners/src/main.rs` lines 398-403): split
`"/" + rel` on `/`, keep the non-empty components, and produce `/` when
at most one component remains, else `/<first component>/`. -/
def codeBucket (rel : String) : String :=
  match (splitChars (fun c => c == '/') ("/" ++ rel).data).filter (fun t => t ≠ []) with
  | [] => "/"
  | [_] => "/"
  | c0 :: _ :: _ => "/" ++ String.mk c0 ++ "/"

/-- The body of the loop of `determine_unowned_paths` for one relative
code-file path: prepend `/`, test coverage by prefix against every
pattern key, and on failure insert the first-level directory bucket. -/
def unownedStep (entries : Entries) (unowned : List String) (rel : String) : List String :=
  if entries.any (fun kv => strStartsWith ("/" ++ rel) kv.1) then unowned
  else setInsert (codeBucket rel) unowned

/-- `determine_unowned_paths` (`ls-owners/src/main.rs` lines 389-408):
the set of first-level directory buckets (or `/`) of the code files not
covered by any ownership pattern. -/
def determine_unowned_paths (entries : Entries) (code_files : List String) : List String :=
  code_files.foldl (unownedStep entries) []

/-! ## MappingBuilder (`build_repo_mapping`) -/

/-- The `depth` closure of `build_repo_mapping`
(`s.trim_matches('/').split('/').filter(non-empty).count()`): the number
of non-empty `/`-separated segments after stripping `/` from both ends. -/
def keyDepth (s : String) : Nat :=
  ((splitChars (fun c => c == '/')
      ((s.data.dropWhile (fun c => c == '/')).reverse.dropWhile
        (fun c => c == '/')).reverse).filter (fun t => t ≠ [])).length

/-- The comparator of `build_repo_mapping.sort_by`
(`ls-owners/src/main.rs` lines 423-435): `/` sorts first, then ascending
depth, then string order. -/
def keyCmp (a b : String) : Ordering :=
  if a = "/" ∧ b ≠ "/" then .lt
  else if b = "/" ∧ a ≠ "/" then .gt
  else
    match compare (keyDepth a) (keyDepth b) with
    | .eq => strCmp a b
    | o => o

/-- The non-strict order induced by `keyCmp`; Rust `sort_by` orders its
output by this relation. -/
def keyLe (a b : String) : Prop := keyCmp a b ≠ .gt

instance : DecidableRel keyLe := fun a b => by
  unfold keyLe
  infer_instance

/-- The `sort_by` call of `build_repo_mapping`, modelled as a stable
insertion sort with the source comparator (Rust `sort_by` is a stable
sort, and the comparator returns `eq` only on equal strings, so every
stable sort produces the same list). -/
def sortKeys (ks : List String) : List String := List.insertionSort keyLe ks

/-- A `serde_yaml::Value` as stored under one path key by
`build_repo_mapping`: a single owner string or a sequence of owners. -/
inductive PathVal where
  | str (s : String) : PathVal
  | seq (l : List String) : PathVal
deriving DecidableEq

/-- The `serde_yaml::Mapping` built per repository by
`build_repo_mapping`: an insertion-ordered association list. -/
abbrev Mapping := List (String × PathVal)

/-- A `serde_yaml::Value` as stored under `paths`/`authors` in the
per-repository mapping of `try_process_repo`. -/
inductive TopVal where
  | str (s : String) : TopVal
  | seq (l : List String) : TopVal
  | pmap (m : Mapping) : TopVal
deriving DecidableEq

/-- `serde_yaml::Mapping::insert`: replace in place when the key exists,
append otherwise. -/
def mappingInsert (m : Mapping) (k : String) (v : PathVal) : Mapping :=
  if m.any (fun kv => kv.1 == k) then
    m.map (fun kv => if kv.1 == k then (k, v) else kv)
  else m ++ [(k, v)]

/-- The value stored by `build_repo_mapping` for one key: the single
owner when there is exactly one, a sequence when there are several, and
the literal `UNOWNED` when the owner list is empty or the key is not an
ownership pattern. -/
def ownerValue (entries : Entries) (key : String) : PathVal :=
  match mapGet entries key with
  | some owners =>
    match owners with
    | [] => .str "UNOWNED"
    | [o] => .str o
    | _ => .seq owners
  | none => .str "UNOWNED"

/-- `build_repo_mapping` (`ls-owners/src/main.rs` lines 412-454): merge
the pattern keys with the unowned buckets not already present, sort with
the source comparator, and build the mapping. -/
def build_repo_mapping (entries : Entries) (unowned : List String) : Mapping :=
  (sortKeys (entries.map (fun kv => kv.1) ++
      unowned.filter (fun dir => ¬ mapContainsKey entries dir))).foldl
    (fun m key => mappingInsert m key (ownerValue entries key)) []

/-! ## Per-repository processing (`try_process_repo`) -/

/-- The `(status, mapping)` pair computed by the central `match` of
`try_process_repo` (`ls-owners/src/main.rs` lines 216-262).  For
`Present` entries the status is `owned` when no unowned bucket exists
and `partial` otherwise, and the author list is attached exactly when
the status is not `owned` (`has_authors = computed_status != "owned"`,
which holds iff the unowned bucket set is non-empty). -/
def statusAndMapping (own : Ownership) (code_files authors : List String) :
    String × List (String × TopVal) :=
  match own with
  | .Missing =>
    ("unowned", [("paths", TopVal.str "MISSING_CODEOWNERS"),
                 ("authors", TopVal.seq authors)])
  | .Empty =>
    ("unowned", [("paths", TopVal.str "EMPTY_CODEOWNERS"),
                 ("authors", TopVal.seq authors)])
  | .Present entries =>
    (if determine_unowned_paths entries code_files = [] then "owned" else "partial",
     [("paths", TopVal.pmap
        (build_repo_mapping entries (determine_unowned_paths entries code_files)))] ++
       (if determine_unowned_paths entries code_files = [] then []
        else [("authors", TopVal.seq authors)]))

/-- `try_process_repo` (`ls-owners/src/main.rs` lines 209-271), with the
external collaborators as parameters: the result of root-and-slug
resolution, the CODEOWNERS file, the recursively gathered relative code
file paths, and the `git shortlog` author list.  The status filter of
the CLI is the last parameter; a filtered-out repository yields
`none`. -/
def try_process_repo (slugRes : Except String String)
    (file : Option (Except String String)) (code_files : List String)
    (authors : List String) (filter_set : Option (List String)) :
    Except String (Option (String × String × List (String × TopVal))) :=
  match slugRes with
  | .error e => .error e
  | .ok slug =>
    match load_ownership file with
    | .error e => .error e
    | .ok own =>
      match filter_set with
      | some filters =>
        if strLower (statusAndMapping own code_files authors).1 ∈ filters then
          .ok (some (slug, (statusAndMapping own code_files authors).1,
            (statusAndMapping own code_files authors).2))
        else .ok none
      | none =>
        .ok (some (slug, (statusAndMapping own code_files authors).1,
          (statusAndMapping own code_files authors).2))

/-! ## Remote CODEOWNERS parsing (`fetch_remote_codeowners`) -/

/-- One iteration of the entry-building loop of
`fetch_remote_codeowners` (`ls-owners/src/main.rs` lines 699-726): the
same line handling as `load_ownership`, except that owners appearing in
the ex-employee set are removed after the leading `@` is stripped. -/
def fetchParseLine (exclude : List String) (entries : Entries) (raw : String) : Entries :=
  if trimStr raw = "" then entries
  else if reCommentMatch (trimStr raw) then entries
  else
    match splitWhitespace (trimStr raw) with
    | [] => entries
    | [_] => entries
    | p :: owners =>
      mapInsert (if p = "*" then "/" else p)
        ((owners.map trimStartAt).filter (fun o => o ∉ exclude)) entries

/-- The entries built by the 200-OK branch of
`fetch_remote_codeowners` from the decoded file content. -/
def fetchRemoteEntries (exclude : List String) (content : String) : Entries :=
  (rustLines content).foldl (fetchParseLine exclude) []

/-- The classification of the 200-OK branch of
`fetch_remote_codeowners`: `Empty` when zero entries were built,
`Present` otherwise. -/
def fetchRemoteClassify (exclude : List String) (content : String) : Ownership :=
  if fetchRemoteEntries exclude content = [] then .Empty
  else .Present (fetchRemoteEntries exclude content)

/-! ## RepoInfo and ParallelExecutor (`common/src/repo/info.rs`,
`common/src/parallel.rs`) -/

/-- `RepoInfo` (`common/src/repo/info.rs`): repository root path and
`owner/name` slug. -/
structure RepoInfo where
  path : String
  slug : String
deriving DecidableEq

/-- `ParallelExecutor::execute` (`common/src/parallel.rs` lines 19-37).
The rayon fan-out is modelled by its observable behaviour: the work
function is applied to every descriptor, `Ok(Some v)` results are
collected in input order (as `par_iter().filter_map().collect()` does),
`Ok(None)` is skipped, and an `Err` is turned into one `(slug, message)`
diagnostic on the error stream.  The call itself always produces a
result list; it cannot fail. -/
def execute {T : Type} (repos : List RepoInfo)
    (work_fn : RepoInfo → Except String (Option T)) :
    List T × List (String × String) :=
  repos.foldr
    (fun r acc =>
      match work_fn r with
      | .ok (some v) => (v :: acc.1, acc.2)
      | .ok none => acc
      | .error e => (acc.1, (r.slug, e) :: acc.2))
    ([], [])

/-- One step of `ParallelExecutor::execute_with_state`
(`common/src/parallel.rs` lines 54-74).  A work invocation both updates
the shared accumulator (through the mutex) and returns a `Result`; the
executor keeps the updated accumulator in every case and appends one
`(slug, message)` diagnostic when the invocation returned an error. -/
def executeWithStateStep {S T : Type}
    (work_fn : RepoInfo → S → S × Except String (Option T))
    (acc : S × List (String × String)) (r : RepoInfo) :
    S × List (String × String) :=
  match (work_fn r acc.1).2 with
  | .ok _ => ((work_fn r acc.1).1, acc.2)
  | .error e => ((work_fn r acc.1).1, acc.2 ++ [(r.slug, e)])

/-- `ParallelExecutor::execute_with_state`: fold the per-repository step
over the descriptor list, starting from the caller-supplied shared
state, and return the final state together with the emitted
diagnostics. -/
def execute_with_state {S T : Type} (repos : List RepoInfo) (shared_state : S)
    (work_fn : RepoInfo → S → S × Except String (Option T)) :
    S × List (String × String) :=
  repos.foldl (executeWithStateStep work_fn) (shared_state, [])

/-! ## Slug resolution (`common/src/git/url_parser.rs`,
`common/src/repo/info.rs`) -/

/-- `parse_git_url` (`common/src/git/url_parser.rs` lines 7-15); the
`parse_slug` function of `ls-owners/src/main.rs` lines 555-563 is
textually identical. -/
def parse_git_url (url : String) : Option String :=
  match stripPrefixStr url "git@github.com:" with
  | some rest => some (trimEndMatchesStr rest ".git")
  | none =>
    match stripPrefixStr url "https://github.com/" with
    | some rest => some (trimEndMatchesStr rest ".git")
    | none => none

/-- The result of the two `git` subprocess calls made by
`find_repo_root_and_slug` for one candidate path: whether
`git rev-parse --show-toplevel` succeeded and its stdout, and the stdout
of `git remote get-url origin` (whose exit status the source never
checks). -/
structure GitEnv where
  rev_parse_ok : Bool
  rev_parse_stdout : String
  remote_url : String

/-- `find_repo_root_and_slug` (`common/src/repo/info.rs` lines 30-52; the
copy in `ls-owners/src/main.rs` lines 309-330 behaves identically):
fail when `git rev-parse` fails, otherwise trim the root, parse the
origin URL, and fall back to the slug `unknown/unknown` when parsing
fails. -/
def find_repo_root_and_slug (g : GitEnv) : Except String (String × String) :=
  if g.rev_parse_ok then
    let repo_root := trimEndStr g.rev_parse_stdout
    let url := trimStr g.remote_url
    let slug := (parse_git_url url).getD "unknown/unknown"
    .ok (repo_root, slug)
  else .error "Not inside a Git repository"

/-- `RepoInfo::from_path` (`common/src/repo/info.rs` lines 22-26), with
the `git` environment of the path as parameter. -/
def repoInfoFromPath (g : GitEnv) : Except String RepoInfo :=
  match find_repo_root_and_slug g with
  | .ok rs => .ok ⟨rs.1, rs.2⟩
  | .error e => .error e

/-! ## RepoLocator (`common/src/repo/discovery.rs`) -/

/-- The filesystem as seen by repository discovery: directory test,
`.git`-marker test, and directory listing (child paths). -/
structure FS where
  is_dir : String → Bool
  has_git_dir : String → Bool
  read_dir : String → List String

/-- `find_repo_paths` / `find_repo_paths_from_base`
(`common/src/repo/discovery.rs` lines 133-168 and 175-210, which share
their algorithm; `ls-owners/src/main.rs` lines 172-207 is the same
code): a path with a `.git` directory is a repo root; otherwise its
immediate children are scanned, and children that are plain directories
have their own immediate children scanned — a bounded two-level walk. -/
def find_repo_paths (fs : FS) (paths : List String) : List String :=
  paths.flatMap fun p =>
    if fs.has_git_dir p then [p]
    else if fs.is_dir p then
      (fs.read_dir p).flatMap fun child =>
        if fs.has_git_dir child then [child]
        else if fs.is_dir child then
          (fs.read_dir child).filter fs.has_git_dir
        else []
    else []

/-- `discover_all_repos` (`common/src/repo/discovery.rs` lines 114-130):
resolve every discovered root, keep the successes, and emit one
`(path, message)` diagnostic per failure. -/
def discover_all_repos (repo_paths : List String) (git : String → GitEnv) :
    List RepoInfo × List (String × String) :=
  repo_paths.foldr
    (fun p acc =>
      match repoInfoFromPath (git p) with
      | .ok info => (info :: acc.1, acc.2)
      | .error e => (acc.1, (p, e) :: acc.2))
    ([], [])

/-- The identifier match of `discover` (`common/src/repo/discovery.rs`
lines 60-85): an exact match on slug or path, or, failing that, a
substring match on the slug. -/
def identifierMatches (identifiers : List String) (info : RepoInfo) : Bool :=
  identifiers.any (fun i => info.slug == i || info.path == i) ||
  identifiers.any (fun i => strContains info.slug i)

/-- The matched-repository list of the smart-matching branch of
`discover` (`common/src/repo/discovery.rs` lines 54-90): resolve each
discovered root, silently drop resolution failures, and keep the repos
matching some identifier. -/
def discoverMatched (repo_paths : List String) (git : String → GitEnv)
    (identifiers : List String) : List RepoInfo :=
  repo_paths.filterMap fun rp =>
    match repoInfoFromPath (git rp) with
    | .ok info => if identifierMatches identifiers info then some info else none
    | .error _ => none

/-- The deduplication loop of `discover` (`common/src/repo/discovery.rs`
lines 92-97): keep the first occurrence of each slug. -/
def dedupBySlug (l : List RepoInfo) : List RepoInfo :=
  (l.foldl
    (fun (acc : List RepoInfo × List String) info =>
      if info.slug ∈ acc.2 then acc
      else (acc.1 ++ [info], info.slug :: acc.2))
    ([], [])).1

/-- The input-path classification of `discover`
(`common/src/repo/discovery.rs` lines 29-38): `.`, paths ending in `/`,
and existing directories are directory paths; everything else is a bare
repo identifier. -/
def isDirectoryPath (fs : FS) (p : String) : Bool :=
  p == "." || strEndsWith p "/" || fs.is_dir p

/-- The matched-repository list of the smart-matching branch of
`discover` for a given input path list: scan the directory paths (or `.`
when there are none) and keep the resolved repositories matching some
bare identifier. -/
def smartMatched (fs : FS) (git : String → GitEnv) (paths : List String) :
    List RepoInfo :=
  discoverMatched
    (find_repo_paths fs
      (if paths.filter (isDirectoryPath fs) = [] then ["."]
       else paths.filter (isDirectoryPath fs)))
    git (paths.filter (fun p => ¬ isDirectoryPath fs p))

/-- `RepoDiscovery::discover` (`common/src/repo/discovery.rs` lines
27-111): with no bare identifiers, plain scanning via
`discover_all_repos`; with identifiers, scan the directory paths (or `.`
when there are none), keep the matching repositories, and deduplicate by
slug, first seen wins.  Unmatched identifiers only produce warnings and
are not modelled. -/
def discover (fs : FS) (git : String → GitEnv) (paths : List String) :
    List RepoInfo :=
  if paths.filter (fun p => ¬ isDirectoryPath fs p) = [] then
    (discover_all_repos (find_repo_paths fs paths) git).1
  else dedupBySlug (smartMatched fs git paths)

/-! ## Lemmas: character comparison -/

theorem charCmp_eq_iff (a b : Char) : charCmp a b = .eq ↔ a = b := by
  unfold charCmp
  rw [Nat.compare_eq_eq]
  constructor
  · intro h
    have h2 := congrArg Char.ofNat h
    rwa [Char.ofNat_toNat, Char.ofNat_toNat] at h2
  · intro h
    rw [h]

theorem charCmp_swap (a b : Char) : charCmp b a = (charCmp a b).swap := by
  unfold charCmp
  rcases Nat.lt_trichotomy a.toNat b.toNat with h | h | h
  · rw [Nat.compare_eq_lt.mpr h, Nat.compare_eq_gt.mpr h]
    rfl
  · rw [Nat.compare_eq_eq.mpr h, Nat.compare_eq_eq.mpr h.symm]
    rfl
  · rw [Nat.compare_eq_gt.mpr h, Nat.compare_eq_lt.mpr h]
    rfl

theorem listCharCmp_eq_iff (as : List Char) :
    ∀ bs, listCharCmp as bs = .eq ↔ as = bs := by
  induction as with
  | nil =>
    intro bs
    cases bs <;> simp [listCharCmp]
  | cons a as ih =>
    intro bs
    cases bs with
    | nil => simp [listCharCmp]
    | cons b bs =>
      simp only [listCharCmp]
      cases hab : charCmp a b with
      | lt =>
        have hne : a ≠ b := by
          intro he
          rw [he, (charCmp_eq_iff b b).mpr rfl] at hab
          cases hab
        simp [hne]
      | gt =>
        have hne : a ≠ b := by
          intro he
          rw [he, (charCmp_eq_iff b b).mpr rfl] at hab
          cases hab
        simp [hne]
      | eq =>
        have hab2 := (charCmp_eq_iff a b).mp hab
        subst hab2
        rw [ih bs]
        simp

theorem listCharCmp_swap (as : List Char) :
    ∀ bs, listCharCmp bs as = (listCharCmp as bs).swap := by
  induction as with
  | nil =>
    intro bs
    cases bs <;> rfl
  | cons a as ih =>
    intro bs
    cases bs with
    | nil => rfl
    | cons b bs =>
      simp only [listCharCmp]
      rw [charCmp_swap a b]
      cases hab : charCmp a b with
      | lt => rfl
      | gt => rfl
      | eq => exact ih bs

theorem listCharCmp_le_trans (as : List Char) :
    ∀ bs cs, listCharCmp as bs ≠ .gt → listCharCmp bs cs ≠ .gt →
      listCharCmp as cs ≠ .gt := by
  induction as with
  | nil =>
    intro bs cs _ _
    cases cs <;> simp [listCharCmp]
  | cons a as ih =>
    intro bs cs h1 h2
    cases bs with
    | nil =>
      simp [listCharCmp] at h1
    | cons b bs =>
      cases cs with
      | nil =>
        simp [listCharCmp] at h2
      | cons c cs =>
        simp only [listCharCmp] at h1 h2 ⊢
        cases hab : charCmp a b with
        | gt =>
          rw [hab] at h1
          exact absurd rfl h1
        | lt =>
          rw [hab] at h1
          have hab2 : a.toNat < b.toNat := Nat.compare_eq_lt.mp hab
          cases hbc : charCmp b c with
          | gt =>
            rw [hbc] at h2
            exact absurd rfl h2
          | lt =>
            have hbc2 : b.toNat < c.toNat := Nat.compare_eq_lt.mp hbc
            have : charCmp a c = .lt := Nat.compare_eq_lt.mpr (by omega)
            rw [this]
            simp
          | eq =>
            have hbc2 : b.toNat = c.toNat := Nat.compare_eq_eq.mp hbc
            have : charCmp a c = .lt := Nat.compare_eq_lt.mpr (by omega)
            rw [this]
            simp
        | eq =>
          rw [hab] at h1
          have hab2 : a.toNat = b.toNat := Nat.compare_eq_eq.mp hab
          cases hbc : charCmp b c with
          | gt =>
            rw [hbc] at h2
            exact absurd rfl h2
          | lt =>
            have hbc2 : b.toNat < c.toNat := Nat.compare_eq_lt.mp hbc
            have : charCmp a c = .lt := Nat.compare_eq_lt.mpr (by omega)
            rw [this]
            simp
          | eq =>
            rw [hbc] at h2
            have hbc2 : b.toNat = c.toNat := Nat.compare_eq_eq.mp hbc
            have : charCmp a c = .eq := Nat.compare_eq_eq.mpr (by omega)
            rw [this]
            exact ih bs cs h1 h2

theorem strCmp_eq_iff (a b : String) : strCmp a b = .eq ↔ a = b := by
  unfold strCmp
  rw [listCharCmp_eq_iff]
  constructor
  · intro h
    exact String.ext h
  · intro h
    rw [h]

theorem strCmp_swap (a b : String) : strCmp b a = (strCmp a b).swap :=
  listCharCmp_swap a.data b.data

theorem strCmp_le_trans {a b c : String} (h1 : strCmp a b ≠ .gt)
    (h2 : strCmp b c ≠ .gt) : strCmp a c ≠ .gt :=
  listCharCmp_le_trans a.data b.data c.data h1 h2

theorem strCmp_lt_of_gt {a b : String} (h : strCmp a b = .gt) : strCmp b a = .lt := by
  rw [strCmp_swap, h]
  rfl

theorem strCmp_gt_of_lt {a b : String} (h : strCmp a b = .lt) : strCmp b a = .gt := by
  rw [strCmp_swap, h]
  rfl

theorem strCmp_lt_trans {a b c : String} (h1 : strCmp a b = .lt)
    (h2 : strCmp b c = .lt) : strCmp a c = .lt := by
  have hle : strCmp a c ≠ .gt :=
    strCmp_le_trans (by rw [h1]; simp) (by rw [h2]; simp)
  cases hac : strCmp a c with
  | lt => rfl
  | gt => exact absurd hac hle
  | eq =>
    have hac2 : a = c := (strCmp_eq_iff a c).mp hac
    subst hac2
    have h3 := strCmp_gt_of_lt h1
    rw [h3] at h2
    cases h2

theorem strCmp_ne_of_lt {a b : String} (h : strCmp a b = .lt) : a ≠ b := by
  intro he
  subst he
  rw [(strCmp_eq_iff a a).mpr rfl] at h
  cases h

/-! ## Lemmas: ordered-set insertion -/

theorem mem_setInsert (a x : String) :
    ∀ l, a ∈ setInsert x l ↔ a = x ∨ a ∈ l := by
  intro l
  induction l with
  | nil => simp [setInsert]
  | cons y ys ih =>
    simp only [setInsert]
    cases h : strCmp x y with
    | lt =>
      simp only [List.mem_cons]
    | eq =>
      have h2 : x = y := (strCmp_eq_iff x y).mp h
      subst h2
      simp only [List.mem_cons]
      tauto
    | gt =>
      simp only [List.mem_cons, ih]
      tauto

/-- The sortedness invariant of our `BTreeSet<String>` model. -/
def SetSorted (l : List String) : Prop := l.Pairwise (fun a b => strCmp a b = .lt)

theorem setSorted_setInsert (x : String) :
    ∀ l, SetSorted l → SetSorted (setInsert x l) := by
  intro l
  induction l with
  | nil =>
    intro _
    simp [setInsert, SetSorted]
  | cons y ys ih =>
    intro hs
    rw [SetSorted, List.pairwise_cons] at hs
    simp only [setInsert]
    cases h : strCmp x y with
    | lt =>
      rw [SetSorted, List.pairwise_cons]
      refine ⟨?_, List.Pairwise.cons hs.1 hs.2⟩
      intro z hz
      rcases List.mem_cons.mp hz with hz | hz
      · rw [hz]
        exact h
      · exact strCmp_lt_trans h (hs.1 z hz)
    | eq =>
      exact List.Pairwise.cons hs.1 hs.2
    | gt =>
      rw [SetSorted, List.pairwise_cons]
      refine ⟨?_, ih hs.2⟩
      intro z hz
      rcases (mem_setInsert z x ys).mp hz with hz | hz
      · rw [hz]
        exact strCmp_lt_of_gt h
      · exact hs.1 z hz

theorem setSorted_nodup : ∀ l, SetSorted l → l.Nodup := by
  intro l hs
  exact hs.imp (fun h => strCmp_ne_of_lt h)

/-! ## Lemmas: splitting character lists -/

theorem splitChars_cons_pos (p : Char → Bool) (c : Char) (cs : List Char)
    (hc : p c = true) : splitChars p (c :: cs) = [] :: splitChars p cs := by
  simp [splitChars, hc]

theorem splitChars_cons_neg (p : Char → Bool) (c : Char) (cs ph : List Char)
    (pt : List (List Char)) (hc : p c = false) (hs : splitChars p cs = ph :: pt) :
    splitChars p (c :: cs) = (c :: ph) :: pt := by
  simp [splitChars, hc, hs]

theorem splitChars_ne_nil (p : Char → Bool) : ∀ cs, splitChars p cs ≠ [] := by
  intro cs
  cases cs with
  | nil => simp [splitChars]
  | cons c cs =>
    simp only [splitChars]
    by_cases h : p c
    · simp [h]
    · simp only [h]
      cases hs : splitChars p cs <;> simp

theorem splitChars_no_sep (p : Char → Bool) :
    ∀ cs, (∀ c ∈ cs, p c = false) → splitChars p cs = [cs] := by
  intro cs
  induction cs with
  | nil => simp [splitChars]
  | cons c cs ih =>
    intro h
    have hc : p c = false := h c (List.mem_cons_self c cs)
    have hcs : splitChars p cs = [cs] := ih (fun x hx => h x (List.mem_cons_of_mem c hx))
    simp [splitChars, hc, hcs]

theorem splitChars_sepfree_append (p : Char → Bool) (z : Char) (hz : p z = true) :
    ∀ t rest, (∀ c ∈ t, p c = false) →
      splitChars p (t ++ z :: rest) = t :: splitChars p rest := by
  intro t
  induction t with
  | nil =>
    intro rest _
    simp [splitChars, hz]
  | cons x t ih =>
    intro rest h
    have hx : p x = false := h x (List.mem_cons_self x t)
    have ht := ih rest (fun c hc => h c (List.mem_cons_of_mem x hc))
    rw [List.cons_append, splitChars_cons_neg p x _ t (splitChars p rest) hx ht]

theorem splitChars_last_piece (p : Char → Bool) :
    ∀ cs z, cs.getLast? = some z → p z = false →
      ∃ piece ∈ splitChars p cs, piece ≠ [] := by
  intro cs
  induction cs with
  | nil =>
    intro z hz _
    simp at hz
  | cons c cs ih =>
    intro z hz hpz
    cases hcs : cs with
    | nil =>
      subst hcs
      have hzc : c = z := by simpa using hz
      subst hzc
      refine ⟨[c], ?_, by simp⟩
      rw [splitChars_cons_neg p c [] [] [] hpz rfl]
      simp
    | cons c2 cs2 =>
      subst hcs
      have hlast : (c2 :: cs2).getLast? = some z := by
        rwa [List.getLast?_cons_cons] at hz
      obtain ⟨piece, hmem, hne⟩ := ih z hlast hpz
      by_cases hc : p c
      · refine ⟨piece, ?_, hne⟩
        rw [splitChars_cons_pos p c (c2 :: cs2) hc]
        exact List.mem_cons_of_mem _ hmem
      · have hc2 : p c = false := by simpa using hc
        cases hsp : splitChars p (c2 :: cs2) with
        | nil => exact absurd hsp (splitChars_ne_nil p _)
        | cons ph pt =>
          rw [hsp] at hmem
          rw [splitChars_cons_neg p c (c2 :: cs2) ph pt hc2 hsp]
          rcases List.mem_cons.mp hmem with hp | hp
          · exact ⟨c :: ph, by simp, by simp⟩
          · exact ⟨piece, by simp [hp], hne⟩

/-! ## C2: specification-side notions for `determine_unowned_paths` -/

/-- A well-formed relative code-file path, as produced by
`gather_code_files`: non-empty, and neither starting nor ending with a
slash. -/
def ValidRelPath (p : String) : Prop :=
  p.data ≠ [] ∧ p.data.head? ≠ some '/' ∧ p.data.getLast? ≠ some '/'

/-- The directory bucket in the words of the specification: the root
marker `/` when the file has no directory component, else
`/<first path segment>/`. -/
def bucketSpec (p : String) : String :=
  if '/' ∈ p.data then
    "/" ++ String.mk (p.data.takeWhile (fun c => !(c == '/'))) ++ "/"
  else "/"

/-- Coverage in the words of the specification: some ownership pattern
key is a string prefix of `"/" + p`. -/
def coveredSpec (entries : Entries) (p : String) : Prop :=
  ∃ pat ∈ entries.map Prod.fst, strStartsWith ("/" ++ p) pat = true

theorem data_slash_append (p : String) : ("/" ++ p).data = '/' :: p.data := by
  rw [String.data_append]
  rfl

theorem codeBucket_shape1 (rel : String) (u : List Char)
    (h : (splitChars (fun c => c == '/') ("/" ++ rel).data).filter
      (fun s => s ≠ []) = [u]) : codeBucket rel = "/" := by
  unfold codeBucket
  rw [h]

theorem codeBucket_shape2 (rel : String) (t f : List Char) (fs : List (List Char))
    (h : (splitChars (fun c => c == '/') ("/" ++ rel).data).filter
      (fun s => s ≠ []) = t :: f :: fs) :
    codeBucket rel = "/" ++ String.mk t ++ "/" := by
  unfold codeBucket
  rw [h]

theorem codeBucket_eq_bucketSpec (p : String) (hv : ValidRelPath p) :
    codeBucket p = bucketSpec p := by
  obtain ⟨hne, hhead, hlast⟩ := hv
  -- decompose p.data at the first slash
  have hdecomp := List.takeWhile_append_dropWhile (fun c => !(c == '/')) p.data
  set t := p.data.takeWhile (fun c => !(c == '/')) with ht
  set d := p.data.dropWhile (fun c => !(c == '/')) with hd
  -- the part before the first slash is non-empty and slash-free
  obtain ⟨x, l, hxl⟩ := List.exists_cons_of_ne_nil hne
  have hx : x ≠ '/' := by
    intro hx
    apply hhead
    rw [hxl, hx]
    rfl
  have htne : t ≠ [] := by
    rw [ht, hxl, List.takeWhile_cons_of_pos (by simpa using hx)]
    simp
  have htfree : ∀ c ∈ t, (c == '/') = false := by
    intro c hc
    have h2 := List.mem_takeWhile_imp hc
    simpa using h2
  cases hdshape : d with
  | nil =>
    -- no slash in p at all
    have hall : ∀ c ∈ p.data, (c == '/') = false := by
      intro c hc
      rw [← hdecomp, hdshape, List.append_nil] at hc
      exact htfree c hc
    have hmem : ¬ ('/' ∈ p.data) := by
      intro hm
      have h2 := hall '/' hm
      simp at h2
    have hkey : (splitChars (fun c => c == '/') ("/" ++ p).data).filter
        (fun s => s ≠ []) = [p.data] := by
      rw [data_slash_append p,
        splitChars_cons_pos (fun c => c == '/') '/' p.data (by decide),
        splitChars_no_sep (fun c => c == '/') p.data hall,
        List.filter_cons_of_neg (by simp),
        List.filter_cons_of_pos (by simpa using hne), List.filter_nil]
    rw [codeBucket_shape1 p p.data hkey, bucketSpec, if_neg hmem]
  | cons z d2 =>
    have hz : z = '/' := by
      have hh := List.head?_dropWhile_not (fun c => !(c == '/')) p.data
      rw [← hd, hdshape] at hh
      simp only [List.head?_cons] at hh
      simpa using hh
    subst hz
    have hpdata : p.data = t ++ '/' :: d2 := by
      rw [← hdecomp, hdshape]
    have hslash : '/' ∈ p.data := by
      rw [hpdata]
      simp
    -- the last piece of the remainder is non-empty
    have hd2ne : d2 ≠ [] := by
      intro h2
      apply hlast
      rw [hpdata, h2, List.getLast?_append]
      rfl
    obtain ⟨w, d3, hwd⟩ := List.exists_cons_of_ne_nil hd2ne
    obtain ⟨zl, hzl⟩ : ∃ zl, d2.getLast? = some zl := by
      rw [hwd]
      cases hg : (w :: d3).getLast? with
      | none =>
        rw [List.getLast?_eq_none_iff] at hg
        cases hg
      | some u => exact ⟨u, rfl⟩
    have hplast : p.data.getLast? = some zl := by
      rw [hpdata, List.getLast?_append]
      rw [show ('/' :: d2).getLast? = some zl from ?_]
      · rfl
      · rw [hwd] at hzl ⊢
        rw [List.getLast?_cons_cons]
        exact hzl
    have hzlne : (zl == '/') = false := by
      have hne2 : zl ≠ '/' := by
        intro he
        apply hlast
        rw [hplast, he]
      simpa using hne2
    obtain ⟨piece, hpm, hpne⟩ :=
      splitChars_last_piece (fun c => c == '/') d2 zl hzl hzlne
    have hfmem : piece ∈ (splitChars (fun c => c == '/') d2).filter
        (fun s => s ≠ []) := by
      rw [List.mem_filter]
      exact ⟨hpm, by simpa using hpne⟩
    obtain ⟨f, fs, hffs⟩ := List.exists_cons_of_ne_nil (List.ne_nil_of_mem hfmem)
    have hkey : (splitChars (fun c => c == '/') ("/" ++ p).data).filter
        (fun s => s ≠ []) = t :: f :: fs := by
      rw [data_slash_append p,
        splitChars_cons_pos (fun c => c == '/') '/' p.data (by decide)]
      rw [show splitChars (fun c => c == '/') p.data =
          t :: splitChars (fun c => c == '/') d2 from by
        rw [hpdata]
        exact splitChars_sepfree_append (fun c => c == '/') '/' (by decide) t d2 htfree]
      rw [List.filter_cons_of_neg (by simp),
        List.filter_cons_of_pos (by simpa using htne), hffs]
    rw [codeBucket_shape2 p t f fs hkey, bucketSpec, if_pos hslash, ht]

/-! ## C2: behaviour of `determine_unowned_paths` -/

theorem mem_unownedStep (entries : Entries) (acc : List String) (q d : String) :
    d ∈ unownedStep entries acc q ↔
      (entries.any (fun kv => strStartsWith ("/" ++ q) kv.1) = false ∧
        d = codeBucket q) ∨ d ∈ acc := by
  unfold unownedStep
  by_cases hcov : entries.any (fun kv => strStartsWith ("/" ++ q) kv.1) = true
  · simp [hcov]
  · have hcov2 : entries.any (fun kv => strStartsWith ("/" ++ q) kv.1) = false := by
      simpa using hcov
    simp only [hcov2, Bool.false_eq_true, if_false, mem_setInsert]
    tauto

theorem mem_foldl_unownedStep (entries : Entries) (d : String) :
    ∀ (files : List String) (acc : List String),
      d ∈ files.foldl (unownedStep entries) acc ↔
        d ∈ acc ∨ ∃ p ∈ files,
          entries.any (fun kv => strStartsWith ("/" ++ p) kv.1) = false ∧
          d = codeBucket p := by
  intro files
  induction files with
  | nil => simp
  | cons q files ih =>
    intro acc
    rw [List.foldl_cons, ih (unownedStep entries acc q)]
    rw [mem_unownedStep]
    constructor
    · rintro ((⟨hq, hd⟩ | hacc) | ⟨p, hp, hcond⟩)
      · exact Or.inr ⟨q, List.mem_cons_self q files, hq, hd⟩
      · exact Or.inl hacc
      · exact Or.inr ⟨p, List.mem_cons_of_mem q hp, hcond⟩
    · rintro (hacc | ⟨p, hp, hcond⟩)
      · exact Or.inl (Or.inr hacc)
      · rcases List.mem_cons.mp hp with hpq | hpf
        · subst hpq
          exact Or.inl (Or.inl hcond)
        · exact Or.inr ⟨p, hpf, hcond⟩

theorem setSorted_foldl_unownedStep (entries : Entries) :
    ∀ (files : List String) (acc : List String), SetSorted acc →
      SetSorted (files.foldl (unownedStep entries) acc) := by
  intro files
  induction files with
  | nil =>
    intro acc h
    exact h
  | cons q files ih =>
    intro acc h
    rw [List.foldl_cons]
    apply ih
    unfold unownedStep
    by_cases hcov : entries.any (fun kv => strStartsWith ("/" ++ q) kv.1) = true
    · simpa [hcov] using h
    · have hcov2 : entries.any (fun kv => strStartsWith ("/" ++ q) kv.1) = false := by
        simpa using hcov
      simp only [hcov2, Bool.false_eq_true, if_false]
      exact setSorted_setInsert (codeBucket q) acc h

theorem coveredSpec_iff_any (entries : Entries) (p : String) :
    coveredSpec entries p ↔
      entries.any (fun kv => strStartsWith ("/" ++ p) kv.1) = true := by
  unfold coveredSpec
  rw [List.any_eq_true]
  constructor
  · rintro ⟨pat, hm, hs⟩
    obtain ⟨kv, hkv, hkv2⟩ := List.mem_map.mp hm
    exact ⟨kv, hkv, by rwa [hkv2]⟩
  · rintro ⟨kv, hkv, hs⟩
    exact ⟨kv.1, List.mem_map_of_mem Prod.fst hkv, hs⟩

/-- C2: for every ownership entry map and every list of relative
code-file paths, `determine_unowned_paths` returns exactly the set of
buckets of the uncovered files — a file at relative path `p` is covered
iff some pattern key is a string prefix of `"/" + p`, an uncovered file
contributes the bucket `/` when it has no directory component and
`/<first path segment>/` otherwise — and the result holds each bucket at
most once. -/
theorem determine_unowned_paths_spec (entries : Entries) (code_files : List String)
    (hvalid : ∀ p ∈ code_files, ValidRelPath p) :
    (∀ d, d ∈ determine_unowned_paths entries code_files ↔
      ∃ p ∈ code_files, ¬ coveredSpec entries p ∧ d = bucketSpec p) ∧
    (determine_unowned_paths entries code_files).Nodup := by
  constructor
  · intro d
    unfold determine_unowned_paths
    rw [mem_foldl_unownedStep]
    simp only [List.not_mem_nil, false_or]
    constructor
    · rintro ⟨p, hp, hany, hd⟩
      refine ⟨p, hp, ?_, ?_⟩
      · rw [coveredSpec_iff_any, hany]
        simp
      · rw [hd, codeBucket_eq_bucketSpec p (hvalid p hp)]
    · rintro ⟨p, hp, hcov, hd⟩
      refine ⟨p, hp, ?_, ?_⟩
      · rw [coveredSpec_iff_any] at hcov
        simpa using hcov
      · rw [hd, codeBucket_eq_bucketSpec p (hvalid p hp)]
  · exact setSorted_nodup _
      (setSorted_foldl_unownedStep entries code_files [] List.Pairwise.nil)

/-- Witness for C2 at a concrete input: one covered file and two
uncovered ones, one of them at the repository root. -/
theorem determine_unowned_paths_spec_witness :
    (∀ p ∈ ["main.py", "src/a.py", "x/b.py"], ValidRelPath p) ∧
    ((∀ d, d ∈ determine_unowned_paths [("/x/", ["a"])]
        ["main.py", "src/a.py", "x/b.py"] ↔
      ∃ p ∈ ["main.py", "src/a.py", "x/b.py"],
        ¬ coveredSpec [("/x/", ["a"])] p ∧ d = bucketSpec p) ∧
    (determine_unowned_paths [("/x/", ["a"])]
      ["main.py", "src/a.py", "x/b.py"]).Nodup) := by
  refine ⟨?_, determine_unowned_paths_spec [("/x/", ["a"])]
    ["main.py", "src/a.py", "x/b.py"] ?_⟩ <;>
  · intro p hp
    fin_cases hp <;> exact ⟨by decide, by decide, by decide⟩

/-! ## C3: the ordering law of `build_repo_mapping` -/

theorem keyLe_slash_left (c : String) : keyLe "/" c := by
  unfold keyLe keyCmp
  by_cases hc : c = "/"
  · subst hc
    decide
  · rw [if_pos ⟨rfl, hc⟩]
    decide

theorem keyCmp_right_slash (b : String) (hb : b ≠ "/") : keyCmp b "/" = .gt := by
  unfold keyCmp
  rw [if_neg (fun h => h.2 rfl), if_pos ⟨rfl, hb⟩]

theorem keyCmp_of_ne (a b : String) (ha : a ≠ "/") (hb : b ≠ "/") :
    keyCmp a b =
      match compare (keyDepth a) (keyDepth b) with
      | .eq => strCmp a b
      | o => o := by
  unfold keyCmp
  rw [if_neg (fun h => ha h.1), if_neg (fun h => hb h.1)]

instance : IsTrans String keyLe := by
  constructor
  intro a b c h1 h2
  by_cases ha : a = "/"
  · subst ha
    exact keyLe_slash_left c
  by_cases hb : b = "/"
  · subst hb
    exact absurd (keyCmp_right_slash a ha) h1
  by_cases hc : c = "/"
  · subst hc
    exact absurd (keyCmp_right_slash b hb) h2
  unfold keyLe at h1 h2 ⊢
  rw [keyCmp_of_ne a b ha hb] at h1
  rw [keyCmp_of_ne b c hb hc] at h2
  rw [keyCmp_of_ne a c ha hc]
  cases hab : compare (keyDepth a) (keyDepth b) with
  | gt =>
    rw [hab] at h1
    exact absurd rfl h1
  | lt =>
    have hab2 := Nat.compare_eq_lt.mp hab
    cases hbc : compare (keyDepth b) (keyDepth c) with
    | gt =>
      rw [hbc] at h2
      exact absurd rfl h2
    | lt =>
      have hbc2 := Nat.compare_eq_lt.mp hbc
      rw [Nat.compare_eq_lt.mpr (by omega)]
      exact fun hx => Ordering.noConfusion hx
    | eq =>
      have hbc2 := Nat.compare_eq_eq.mp hbc
      rw [Nat.compare_eq_lt.mpr (by omega)]
      exact fun hx => Ordering.noConfusion hx
  | eq =>
    rw [hab] at h1
    have hab2 := Nat.compare_eq_eq.mp hab
    cases hbc : compare (keyDepth b) (keyDepth c) with
    | gt =>
      rw [hbc] at h2
      exact absurd rfl h2
    | lt =>
      have hbc2 := Nat.compare_eq_lt.mp hbc
      rw [Nat.compare_eq_lt.mpr (by omega)]
      exact fun hx => Ordering.noConfusion hx
    | eq =>
      rw [hbc] at h2
      have hbc2 := Nat.compare_eq_eq.mp hbc
      rw [Nat.compare_eq_eq.mpr (by omega)]
      exact strCmp_le_trans h1 h2

instance : IsTotal String keyLe := by
  constructor
  intro a b
  by_cases ha : a = "/"
  · subst ha
    exact Or.inl (keyLe_slash_left b)
  by_cases hb : b = "/"
  · subst hb
    exact Or.inr (keyLe_slash_left a)
  unfold keyLe
  rw [keyCmp_of_ne a b ha hb, keyCmp_of_ne b a hb ha]
  rcases Nat.lt_trichotomy (keyDepth a) (keyDepth b) with h | h | h
  · left
    rw [Nat.compare_eq_lt.mpr h]
    exact fun hx => Ordering.noConfusion hx
  · rw [Nat.compare_eq_eq.mpr h, Nat.compare_eq_eq.mpr h.symm]
    cases hs : strCmp a b with
    | lt =>
      left
      exact fun hx => Ordering.noConfusion hx
    | eq =>
      left
      exact fun hx => Ordering.noConfusion hx
    | gt =>
      right
      rw [strCmp_lt_of_gt hs]
      exact fun hx => Ordering.noConfusion hx
  · right
    rw [Nat.compare_eq_lt.mpr h]
    exact fun hx => Ordering.noConfusion hx

/-! Depth of a key in the words of the specification: the count of
non-empty slash-separated segments, with no boundary trimming.  The
`depth` closure in the source first strips slashes from both ends, which
removes only empty segments, so the two counts agree. -/

/-- The count of non-empty `/`-separated segments of a key. -/
def specDepth (s : String) : Nat :=
  ((splitChars (fun c => c == '/') s.data).filter (fun t => t ≠ [])).length

theorem filterlen_dropWhile (p : Char → Bool) :
    ∀ cs, ((splitChars p (cs.dropWhile p)).filter (fun t => t ≠ [])).length =
      ((splitChars p cs).filter (fun t => t ≠ [])).length := by
  intro cs
  induction cs with
  | nil => rfl
  | cons c cs ih =>
    by_cases hc : p c
    · rw [List.dropWhile_cons_of_pos hc, ih, splitChars_cons_pos p c cs hc]
      simp
    · rw [List.dropWhile_cons_of_neg hc]

theorem splitChars_snoc_pos (p : Char → Bool) (c : Char) (hc : p c = true) :
    ∀ cs, splitChars p (cs ++ [c]) = splitChars p cs ++ [[]] := by
  intro cs
  induction cs with
  | nil =>
    rw [List.nil_append, splitChars_cons_pos p c [] hc]
    rfl
  | cons x cs ih =>
    by_cases hx : p x
    · rw [List.cons_append, splitChars_cons_pos p x (cs ++ [c]) hx, ih,
        splitChars_cons_pos p x cs hx]
      rfl
    · have hx2 : p x = false := by simpa using hx
      cases hsp : splitChars p cs with
      | nil => exact absurd hsp (splitChars_ne_nil p cs)
      | cons ph pt =>
        rw [List.cons_append,
          splitChars_cons_neg p x (cs ++ [c]) ph (pt ++ [[]]) hx2 (by rw [ih, hsp]; rfl),
          splitChars_cons_neg p x cs ph pt hx2 hsp]
        rfl

theorem filterlen_dropLastWhile (p : Char → Bool) :
    ∀ cs, ((splitChars p ((cs.reverse.dropWhile p).reverse)).filter
        (fun t => t ≠ [])).length =
      ((splitChars p cs).filter (fun t => t ≠ [])).length := by
  intro cs
  induction cs using List.reverseRecOn with
  | nil => rfl
  | append_singleton xs c ih =>
    by_cases hc : p c
    · rw [List.reverse_append, List.reverse_singleton, List.singleton_append,
        List.dropWhile_cons_of_pos hc, ih, splitChars_snoc_pos p c hc xs,
        List.filter_append]
      simp
    · rw [List.reverse_append, List.reverse_singleton, List.singleton_append,
        List.dropWhile_cons_of_neg hc, List.reverse_cons, List.reverse_reverse]

theorem keyDepth_eq_specDepth (s : String) : keyDepth s = specDepth s := by
  unfold keyDepth specDepth
  rw [filterlen_dropLastWhile (fun c => c == '/') (s.data.dropWhile (fun c => c == '/')),
    filterlen_dropWhile (fun c => c == '/') s.data]

/-- The ordering stated by the specification: the root marker `/` sorts
first; all other keys sort by ascending count of non-empty
slash-separated segments, and lexicographically (by code point) among
keys of equal depth. -/
def specKeyOrder (a b : String) : Prop :=
  a = "/" ∨ (b ≠ "/" ∧ (specDepth a < specDepth b ∨
    (specDepth a = specDepth b ∧ listCharCmp a.data b.data ≠ .gt)))

theorem keyLe_imp_specKeyOrder {a b : String} (h : keyLe a b) : specKeyOrder a b := by
  by_cases ha : a = "/"
  · exact Or.inl ha
  by_cases hb : b = "/"
  · subst hb
    exact absurd (keyCmp_right_slash a ha) h
  refine Or.inr ⟨hb, ?_⟩
  unfold keyLe at h
  rw [keyCmp_of_ne a b ha hb] at h
  rw [← keyDepth_eq_specDepth a, ← keyDepth_eq_specDepth b]
  cases hab : compare (keyDepth a) (keyDepth b) with
  | gt =>
    rw [hab] at h
    exact absurd rfl h
  | lt => exact Or.inl (Nat.compare_eq_lt.mp hab)
  | eq =>
    rw [hab] at h
    exact Or.inr ⟨Nat.compare_eq_eq.mp hab, h⟩

theorem keys_foldl_mappingInsert (v : String → PathVal) :
    ∀ (ks : List String) (m : Mapping),
      ((ks.foldl (fun m key => mappingInsert m key (v key)) m).map
        Prod.fst).Sublist ((m.map Prod.fst) ++ ks) := by
  intro ks
  induction ks with
  | nil =>
    intro m
    simpa using List.Sublist.refl (m.map Prod.fst)
  | cons k ks ih =>
    intro m
    rw [List.foldl_cons]
    have hins : ((mappingInsert m k (v k)).map Prod.fst).Sublist
        (m.map Prod.fst ++ [k]) := by
      unfold mappingInsert
      by_cases hmem : m.any (fun kv => kv.1 == k) = true
      · rw [if_pos hmem]
        have hkeys : (m.map (fun kv => if kv.1 == k then (k, v k) else kv)).map
            Prod.fst = m.map Prod.fst := by
          rw [List.map_map]
          apply List.map_congr_left
          intro kv _
          by_cases hkv : kv.1 == k
          · have heq : kv.1 = k := eq_of_beq hkv
            simp [hkv, heq]
          · have hne2 : ¬ kv.1 = k := by simpa using hkv
            simp [hne2]
        rw [hkeys]
        exact List.sublist_append_left (m.map Prod.fst) [k]
      · rw [if_neg hmem, List.map_append]
        exact List.Sublist.refl _
    have h2 := (ih (mappingInsert m k (v k))).trans (hins.append_right ks)
    rw [List.append_assoc] at h2
    simpa using h2

/-- C3: the key list of the mapping built by `build_repo_mapping` is
ordered with the root marker `/` first and every other pair of keys in
ascending depth order, lexicographic among equal depths. -/
theorem build_repo_mapping_key_order (entries : Entries) (unowned : List String) :
    ((build_repo_mapping entries unowned).map Prod.fst).Pairwise specKeyOrder := by
  unfold build_repo_mapping
  have hsorted : List.Pairwise keyLe
      (sortKeys (entries.map (fun kv => kv.1) ++
        unowned.filter (fun dir => ¬ mapContainsKey entries dir))) :=
    List.sorted_insertionSort keyLe _
  have hsub := keys_foldl_mappingInsert (ownerValue entries)
    (sortKeys (entries.map (fun kv => kv.1) ++
      unowned.filter (fun dir => ¬ mapContainsKey entries dir))) []
  simp only [List.map_nil, List.nil_append] at hsub
  exact (List.Pairwise.sublist hsub hsorted).imp (fun h => keyLe_imp_specKeyOrder h)

/-! ## C1: the status tri-state of `try_process_repo` -/

/-- C1: for a repository analyzed from a local working tree, the
computed status is `owned` iff the ownership table is `Present` and
`determine_unowned_paths` returns an empty bucket set, `partial` iff the
table is `Present` and the bucket set is non-empty, and `unowned` iff
the classification is `Missing` or `Empty`. -/
theorem try_process_repo_status (slug : String) (file : Option (Except String String))
    (code_files authors : List String) (fset : Option (List String))
    (own : Ownership) (s2 st : String) (m : List (String × TopVal))
    (hown : load_ownership file = .ok own)
    (h : try_process_repo (.ok slug) file code_files authors fset =
      .ok (some (s2, st, m))) :
    (st = "owned" ↔ ∃ e, own = .Present e ∧
      determine_unowned_paths e code_files = []) ∧
    (st = "partial" ↔ ∃ e, own = .Present e ∧
      determine_unowned_paths e code_files ≠ []) ∧
    (st = "unowned" ↔ own = .Missing ∨ own = .Empty) := by
  have hst : st = (statusAndMapping own code_files authors).1 := by
    have h2 := h
    unfold try_process_repo at h2
    rw [hown] at h2
    cases fset with
    | none =>
      have h3 : Except.ok (some (slug, (statusAndMapping own code_files authors).1,
          (statusAndMapping own code_files authors).2)) =
          (Except.ok (some (s2, st, m)) :
            Except String (Option (String × String × List (String × TopVal)))) := h2
      simp only [Except.ok.injEq, Option.some.injEq, Prod.mk.injEq] at h3
      exact h3.2.1.symm
    | some filters =>
      have h3 : (if strLower (statusAndMapping own code_files authors).1 ∈ filters then
          Except.ok (some (slug, (statusAndMapping own code_files authors).1,
            (statusAndMapping own code_files authors).2))
          else Except.ok none) =
          (Except.ok (some (s2, st, m)) :
            Except String (Option (String × String × List (String × TopVal)))) := h2
      by_cases hf : strLower (statusAndMapping own code_files authors).1 ∈ filters
      · rw [if_pos hf] at h3
        simp only [Except.ok.injEq, Option.some.injEq, Prod.mk.injEq] at h3
        exact h3.2.1.symm
      · rw [if_neg hf] at h3
        simp at h3
  subst hst
  cases own with
  | Missing =>
    have hs : (statusAndMapping .Missing code_files authors).1 = "unowned" := rfl
    rw [hs]
    refine ⟨?_, ?_, ⟨fun _ => Or.inl rfl, fun _ => rfl⟩⟩
    · constructor
      · intro hx
        exact absurd hx (by decide)
      · rintro ⟨e, he, _⟩
        cases he
    · constructor
      · intro hx
        exact absurd hx (by decide)
      · rintro ⟨e, he, _⟩
        cases he
  | Empty =>
    have hs : (statusAndMapping .Empty code_files authors).1 = "unowned" := rfl
    rw [hs]
    refine ⟨?_, ?_, ⟨fun _ => Or.inr rfl, fun _ => rfl⟩⟩
    · constructor
      · intro hx
        exact absurd hx (by decide)
      · rintro ⟨e, he, _⟩
        cases he
    · constructor
      · intro hx
        exact absurd hx (by decide)
      · rintro ⟨e, he, _⟩
        cases he
  | Present entries =>
    by_cases hemp : determine_unowned_paths entries code_files = []
    · have hs : (statusAndMapping (.Present entries) code_files authors).1 =
          "owned" := by
        simp [statusAndMapping, hemp]
      rw [hs]
      refine ⟨⟨fun _ => ⟨entries, rfl, hemp⟩, fun _ => rfl⟩, ?_, ?_⟩
      · constructor
        · intro hx
          exact absurd hx (by decide)
        · rintro ⟨e, he, hne⟩
          cases he
          exact absurd hemp hne
      · constructor
        · intro hx
          exact absurd hx (by decide)
        · rintro (he | he) <;> cases he
    · have hs : (statusAndMapping (.Present entries) code_files authors).1 =
          "partial" := by
        simp [statusAndMapping, hemp]
      rw [hs]
      refine ⟨?_, ⟨fun _ => ⟨entries, rfl, hemp⟩, fun _ => rfl⟩, ?_⟩
      · constructor
        · intro hx
          exact absurd hx (by decide)
        · rintro ⟨e, he, hz⟩
          cases he
          exact absurd hz hemp
      · constructor
        · intro hx
          exact absurd hx (by decide)
        · rintro (he | he) <;> cases he

/-- Witness for C1 at a concrete input: a wildcard-owned repository with
a single code file, hence status `owned`. -/
theorem try_process_repo_status_witness :
    load_ownership (some (.ok "* @alice")) = .ok (.Present [("/", ["alice"])]) ∧
    try_process_repo (.ok "o/r") (some (.ok "* @alice")) ["src/main.py"] [] none =
      .ok (some ("o/r", "owned", [("paths", TopVal.pmap [("/", PathVal.str "alice")])])) ∧
    ((("owned" : String) = "owned" ↔ ∃ e, Ownership.Present [("/", ["alice"])] = .Present e ∧
      determine_unowned_paths e ["src/main.py"] = []) ∧
    (("owned" : String) = "partial" ↔ ∃ e, Ownership.Present [("/", ["alice"])] = .Present e ∧
      determine_unowned_paths e ["src/main.py"] ≠ []) ∧
    (("owned" : String) = "unowned" ↔ Ownership.Present [("/", ["alice"])] = .Missing ∨
      Ownership.Present [("/", ["alice"])] = .Empty)) :=
  ⟨rfl, rfl,
    try_process_repo_status "o/r" (some (.ok "* @alice")) ["src/main.py"] [] none
      (.Present [("/", ["alice"])]) "o/r" "owned"
      [("paths", TopVal.pmap [("/", PathVal.str "alice")])] rfl rfl⟩

/-! ## C5 and C10: the `load_ownership` contract and owner-less lines -/

theorem parseOwnershipLine_skip (entries : Entries) (raw : String)
    (h : trimStr raw = "" ∨ reCommentMatch (trimStr raw) = true ∨
      (splitWhitespace (trimStr raw)).length < 2) :
    parseOwnershipLine entries raw = entries := by
  unfold parseOwnershipLine
  by_cases hb : trimStr raw = ""
  · rw [if_pos hb]
  · rw [if_neg hb]
    by_cases hcm : reCommentMatch (trimStr raw) = true
    · rw [if_pos hcm]
    · rw [if_neg hcm]
      have hlen : (splitWhitespace (trimStr raw)).length < 2 := by
        rcases h with h | h | h
        · exact absurd h hb
        · exact absurd h hcm
        · exact h
      cases hsp : splitWhitespace (trimStr raw) with
      | nil => rfl
      | cons p rest =>
        cases rest with
        | nil => rfl
        | cons q t =>
          rw [hsp] at hlen
          simp only [List.length_cons] at hlen
          omega

theorem fetchParseLine_skip (exclude : List String) (entries : Entries) (raw : String)
    (h : trimStr raw = "" ∨ reCommentMatch (trimStr raw) = true ∨
      (splitWhitespace (trimStr raw)).length < 2) :
    fetchParseLine exclude entries raw = entries := by
  unfold fetchParseLine
  by_cases hb : trimStr raw = ""
  · rw [if_pos hb]
  · rw [if_neg hb]
    by_cases hcm : reCommentMatch (trimStr raw) = true
    · rw [if_pos hcm]
    · rw [if_neg hcm]
      have hlen : (splitWhitespace (trimStr raw)).length < 2 := by
        rcases h with h | h | h
        · exact absurd h hb
        · exact absurd h hcm
        · exact h
      cases hsp : splitWhitespace (trimStr raw) with
      | nil => rfl
      | cons p rest =>
        cases rest with
        | nil => rfl
        | cons q t =>
          rw [hsp] at hlen
          simp only [List.length_cons] at hlen
          omega

theorem foldl_skip_all {α : Type} {ls : List String} (f : α → String → α)
    (hf : ∀ (acc : α) (raw : String), raw ∈ ls → f acc raw = acc) :
    ∀ (acc : α), ls.foldl f acc = acc := by
  induction ls with
  | nil =>
    intro acc
    rfl
  | cons r rs ih =>
    intro acc
    rw [List.foldl_cons, hf acc r (List.mem_cons_self r rs)]
    exact ih (fun acc raw hm => hf acc raw (List.mem_cons_of_mem r hm)) acc

/-- C5: `load_ownership` returns `Missing` exactly when the CODEOWNERS
file is absent (absence is never an error), fails exactly when a present
file is unreadable, returns `Empty` for a readable file with zero parsed
entries (in particular one holding only blank and comment lines), and
returns `Present` with the parsed entries otherwise — so it never
returns `Missing` for an existing file. -/
theorem load_ownership_contract (file : Option (Except String String)) :
    (load_ownership file = .ok .Missing ↔ file = none) ∧
    (∀ e, load_ownership file = .error e ↔ file = some (.error e)) ∧
    (∀ content, file = some (.ok content) →
      ((load_ownership file = .ok .Empty ↔ parseCodeowners content = []) ∧
       (parseCodeowners content ≠ [] →
         load_ownership file = .ok (.Present (parseCodeowners content))))) ∧
    (∀ content, file = some (.ok content) →
      (∀ raw ∈ rustLines content,
        trimStr raw = "" ∨ reCommentMatch (trimStr raw) = true) →
      load_ownership file = .ok .Empty) := by
  refine ⟨?_, ?_, ?_, ?_⟩
  · cases file with
    | none => simp [load_ownership]
    | some r =>
      cases r with
      | error e => simp [load_ownership]
      | ok content =>
        simp only [load_ownership]
        by_cases hp : parseCodeowners content = []
        · rw [if_pos hp]
          simp
        · rw [if_neg hp]
          simp
  · intro e
    cases file with
    | none => simp [load_ownership]
    | some r =>
      cases r with
      | error e2 => simp [load_ownership]
      | ok content =>
        simp only [load_ownership]
        by_cases hp : parseCodeowners content = []
        · rw [if_pos hp]
          simp
        · rw [if_neg hp]
          simp
  · intro content hfile
    subst hfile
    simp only [load_ownership]
    by_cases hp : parseCodeowners content = []
    · rw [if_pos hp]
      exact ⟨by simp [hp], fun hne => absurd hp hne⟩
    · rw [if_neg hp]
      refine ⟨?_, fun _ => rfl⟩
      simp [hp]
  · intro content hfile hlines
    subst hfile
    have hp : parseCodeowners content = [] := by
      unfold parseCodeowners
      exact foldl_skip_all parseOwnershipLine
        (fun acc raw hm => parseOwnershipLine_skip acc raw
          (by rcases hlines raw hm with h | h
              · exact Or.inl h
              · exact Or.inr (Or.inl h))) []
    simp [load_ownership, hp]

/-- Witness for C5 at concrete inputs: an absent file, an unreadable
file, a comments-only file and a one-entry file. -/
theorem load_ownership_contract_witness :
    (load_ownership none = .ok .Missing ↔ (none : Option (Except String String)) = none) ∧
    (load_ownership (some (.error "io")) = .error "io" ↔
      (some (.error "io") : Option (Except String String)) = some (.error "io")) ∧
    ((load_ownership (some (.ok "# c\n\n")) = .ok .Empty ↔
      parseCodeowners "# c\n\n" = []) ∧
     load_ownership (some (.ok "* @alice")) =
       .ok (.Present (parseCodeowners "* @alice"))) ∧
    load_ownership (some (.ok "# only\n# comments")) = .ok .Empty :=
  ⟨(load_ownership_contract none).1,
   (load_ownership_contract (some (.error "io"))).2.1 "io",
   ⟨((load_ownership_contract (some (.ok "# c\n\n"))).2.2.1 "# c\n\n" rfl).1,
    ((load_ownership_contract (some (.ok "* @alice"))).2.2.1 "* @alice" rfl).2
      (by decide)⟩,
   (load_ownership_contract (some (.ok "# only\n# comments"))).2.2.2
     "# only\n# comments" rfl (by decide)⟩

/-- C10: a non-blank, non-comment CODEOWNERS line with fewer than two
whitespace-separated tokens contributes no entry — in both the local
parser of `load_ownership` and the remote parser of
`fetch_remote_codeowners` — and a file whose non-blank non-comment
lines are all owner-less is classified `Empty`, not `Present`. -/
theorem codeowners_ownerless_lines :
    (∀ (entries : Entries) (raw : String), trimStr raw ≠ "" →
      reCommentMatch (trimStr raw) = false →
      (splitWhitespace (trimStr raw)).length < 2 →
      parseOwnershipLine entries raw = entries) ∧
    (∀ content : String,
      (∀ raw ∈ rustLines content, trimStr raw = "" ∨
        reCommentMatch (trimStr raw) = true ∨
        (splitWhitespace (trimStr raw)).length < 2) →
      load_ownership (some (.ok content)) = .ok .Empty) ∧
    (∀ (exclude : List String) (entries : Entries) (raw : String), trimStr raw ≠ "" →
      reCommentMatch (trimStr raw) = false →
      (splitWhitespace (trimStr raw)).length < 2 →
      fetchParseLine exclude entries raw = entries) ∧
    (∀ (exclude : List String) (content : String),
      (∀ raw ∈ rustLines content, trimStr raw = "" ∨
        reCommentMatch (trimStr raw) = true ∨
        (splitWhitespace (trimStr raw)).length < 2) →
      fetchRemoteClassify exclude content = .Empty) := by
  refine ⟨?_, ?_, ?_, ?_⟩
  · intro entries raw _ _ hlen
    exact parseOwnershipLine_skip entries raw (Or.inr (Or.inr hlen))
  · intro content hlines
    have hp : parseCodeowners content = [] := by
      unfold parseCodeowners
      exact foldl_skip_all parseOwnershipLine
        (fun acc raw hm => parseOwnershipLine_skip acc raw (hlines raw hm)) []
    simp [load_ownership, hp]
  · intro exclude entries raw _ _ hlen
    exact fetchParseLine_skip exclude entries raw (Or.inr (Or.inr hlen))
  · intro exclude content hlines
    have hp : fetchRemoteEntries exclude content = [] := by
      unfold fetchRemoteEntries
      exact foldl_skip_all (fetchParseLine exclude)
        (fun acc raw hm => fetchParseLine_skip exclude acc raw (hlines raw hm)) []
    simp [fetchRemoteClassify, hp]

/-- Witness for C10 at concrete inputs: an owner-less pattern line is
skipped, and a file of owner-less lines is classified `Empty`. -/
theorem codeowners_ownerless_lines_witness :
    (trimStr "pattern-without-owner" ≠ "" ∧
      reCommentMatch (trimStr "pattern-without-owner") = false ∧
      (splitWhitespace (trimStr "pattern-without-owner")).length < 2) ∧
    parseOwnershipLine [("/", ["a"])] "pattern-without-owner" = [("/", ["a"])] ∧
    load_ownership (some (.ok "pattern-without-owner\nother\n")) = .ok .Empty ∧
    fetchParseLine ["x"] [("/", ["a"])] "pattern-without-owner" = [("/", ["a"])] ∧
    fetchRemoteClassify ["x"] "pattern-without-owner\nother\n" = .Empty :=
  ⟨⟨by decide, by decide, by decide⟩,
   codeowners_ownerless_lines.1 [("/", ["a"])] "pattern-without-owner"
     (by decide) (by decide) (by decide),
   codeowners_ownerless_lines.2.1 "pattern-without-owner\nother\n" (by decide),
   codeowners_ownerless_lines.2.2.1 ["x"] [("/", ["a"])] "pattern-without-owner"
     (by decide) (by decide) (by decide),
   codeowners_ownerless_lines.2.2.2 ["x"] "pattern-without-owner\nother\n"
     (by decide)⟩

/-! ## C4: failure isolation of `ParallelExecutor::execute` -/

theorem execute_cons {T : Type} (f : RepoInfo → Except String (Option T))
    (x : RepoInfo) (l : List RepoInfo) :
    execute (x :: l) f =
      match f x with
      | .ok (some val) => (val :: (execute l f).1, (execute l f).2)
      | .ok none => execute l f
      | .error e => ((execute l f).1, (x.slug, e) :: (execute l f).2) := by
  unfold execute
  rw [List.foldr_cons]

theorem execute_all_ok {T : Type} (f : RepoInfo → Except String (Option T))
    (v : RepoInfo → T) :
    ∀ l : List RepoInfo, (∀ r ∈ l, f r = .ok (some (v r))) →
      execute l f = (l.map v, []) := by
  intro l
  induction l with
  | nil =>
    intro _
    rfl
  | cons x xs ih =>
    intro h
    rw [execute_cons, h x (List.mem_cons_self x xs),
      ih (fun r hr => h r (List.mem_cons_of_mem x hr))]
    rfl

/-- C4: when the work function fails on exactly one descriptor of a
duplicate-free list and returns `Ok(Some …)` on every other, `execute`
returns exactly the values of the non-failing descriptors (N−1 of
them), and reports the one failure as a single `(slug, message)`
diagnostic; the call itself produces a result list and cannot fail. -/
theorem execute_isolation {T : Type} (repos : List RepoInfo) (r0 : RepoInfo)
    (e : String) (f : RepoInfo → Except String (Option T)) (v : RepoInfo → T)
    (hnd : repos.Nodup) (hmem : r0 ∈ repos) (hf0 : f r0 = .error e)
    (hf : ∀ r ∈ repos, r ≠ r0 → f r = .ok (some (v r))) :
    (execute repos f).1 = (repos.filter (fun r => r ≠ r0)).map v ∧
    (execute repos f).1.length = repos.length - 1 ∧
    (execute repos f).2 = [(r0.slug, e)] := by
  induction repos with
  | nil => cases hmem
  | cons x xs ih =>
    rcases List.mem_cons.mp hmem with hx | hx
    · subst hx
      have hxs : ∀ r ∈ xs, f r = .ok (some (v r)) := by
        intro r hr
        have hrne : r ≠ r0 := by
          intro he
          subst he
          exact (List.nodup_cons.mp hnd).1 hr
        exact hf r (List.mem_cons_of_mem r0 hr) hrne
      have hfilter : xs.filter (fun r => r ≠ r0) = xs := by
        apply List.filter_eq_self.mpr
        intro r hr
        simp only [decide_eq_true_eq]
        intro he
        subst he
        exact (List.nodup_cons.mp hnd).1 hr
      rw [execute_cons, hf0, execute_all_ok f v xs hxs]
      refine ⟨?_, ?_, rfl⟩
      · rw [List.filter_cons_of_neg (by simp)]
        rw [hfilter]
      · simp
    · have hxne : x ≠ r0 := by
        intro he
        subst he
        exact (List.nodup_cons.mp hnd).1 hx
      obtain ⟨ih1, ih2, ih3⟩ := ih (List.nodup_cons.mp hnd).2 hx
        (fun r hr hrne => hf r (List.mem_cons_of_mem x hr) hrne)
      rw [execute_cons, hf x (List.mem_cons_self x xs) hxne]
      refine ⟨?_, ?_, ih3⟩
      · rw [List.filter_cons_of_pos (by simpa using hxne), ih1, List.map_cons]
      · have hlen : xs.length ≥ 1 := by
          cases xs with
          | nil => cases hx
          | cons a b => simp
        simp only [List.length_cons, ih2]
        omega

/-- Witness for C4: three distinct repositories, the middle one failing. -/
theorem execute_isolation_witness :
    ([⟨"/a", "o/a"⟩, ⟨"/b", "o/b"⟩, ⟨"/c", "o/c"⟩] : List RepoInfo).Nodup ∧
    (⟨"/b", "o/b"⟩ : RepoInfo) ∈
      ([⟨"/a", "o/a"⟩, ⟨"/b", "o/b"⟩, ⟨"/c", "o/c"⟩] : List RepoInfo) ∧
    ((execute [⟨"/a", "o/a"⟩, ⟨"/b", "o/b"⟩, ⟨"/c", "o/c"⟩]
        (fun r => if r.slug = "o/b" then .error "boom" else .ok (some r.slug))).1 =
      (([⟨"/a", "o/a"⟩, ⟨"/b", "o/b"⟩, ⟨"/c", "o/c"⟩] : List RepoInfo).filter
        (fun r => r ≠ ⟨"/b", "o/b"⟩)).map (fun r => r.slug) ∧
    (execute [⟨"/a", "o/a"⟩, ⟨"/b", "o/b"⟩, ⟨"/c", "o/c"⟩]
        (fun r => if r.slug = "o/b" then .error "boom" else .ok (some r.slug))).1.length =
      ([⟨"/a", "o/a"⟩, ⟨"/b", "o/b"⟩, ⟨"/c", "o/c"⟩] : List RepoInfo).length - 1 ∧
    (execute [⟨"/a", "o/a"⟩, ⟨"/b", "o/b"⟩, ⟨"/c", "o/c"⟩]
        (fun r => if r.slug = "o/b" then .error "boom" else .ok (some r.slug))).2 =
      [("o/b", "boom")]) :=
  ⟨by decide, by decide,
   execute_isolation [⟨"/a", "o/a"⟩, ⟨"/b", "o/b"⟩, ⟨"/c", "o/c"⟩] ⟨"/b", "o/b"⟩
     "boom" (fun r => if r.slug = "o/b" then .error "boom" else .ok (some r.slug))
     (fun r => r.slug) (by decide) (by decide) rfl
     (by
       intro r hr hne
       fin_cases hr
       · rfl
       · exact absurd rfl hne
       · rfl)⟩

/-! ## C8: state semantics of `ParallelExecutor::execute_with_state` -/

/-- A counterexample to the claim that an erroring invocation leaves the
accumulator unchanged: the executor performs no rollback, so a work
function that updates the shared state through the mutex and then
returns an error keeps its update.  Here the single invocation errors
yet the accumulator moves from `0` to `1`; the error is still logged and
the call completes. -/
theorem execute_with_state_mutation_counterexample :
    execute_with_state [⟨"/r", "o/r"⟩] (0 : Nat)
      (fun _ s => (s + 1, (.error "boom" : Except String (Option Unit)))) =
      (1, [("o/r", "boom")]) ∧ (1 : Nat) ≠ 0 :=
  ⟨rfl, by decide⟩

theorem execute_with_state_acc_shift {S T : Type}
    (f : RepoInfo → S → S × Except String (Option T)) :
    ∀ (l : List RepoInfo) (s : S) (d : List (String × String)),
      l.foldl (executeWithStateStep f) (s, d) =
        ((l.foldl (executeWithStateStep f) (s, [])).1,
          d ++ (l.foldl (executeWithStateStep f) (s, [])).2) := by
  intro l
  induction l with
  | nil =>
    intro s d
    simp
  | cons r rs ih =>
    intro s d
    rw [List.foldl_cons, List.foldl_cons]
    cases hw : (f r s).2 with
    | ok o =>
      have hstep : ∀ d2 : List (String × String),
          executeWithStateStep f (s, d2) r = ((f r s).1, d2) := by
        intro d2
        show (match (f r s).2 with
          | .ok _ => ((f r s).1, d2)
          | .error e => ((f r s).1, d2 ++ [(r.slug, e)])) = _
        rw [hw]
      rw [hstep d, hstep [], ih (f r s).1 d, ih (f r s).1 []]
    | error e =>
      have hstep : ∀ d2 : List (String × String),
          executeWithStateStep f (s, d2) r = ((f r s).1, d2 ++ [(r.slug, e)]) := by
        intro d2
        show (match (f r s).2 with
          | .ok _ => ((f r s).1, d2)
          | .error e2 => ((f r s).1, d2 ++ [(r.slug, e2)])) = _
        rw [hw]
      rw [hstep d, hstep [], ih (f r s).1 (d ++ [(r.slug, e)]),
        ih (f r s).1 ([] ++ [(r.slug, e)])]
      simp

/-- C8 (amended): when one invocation returns an error, the executor
logs one `(slug, message)` diagnostic and the other invocations and the
overall call complete normally.  The executor performs no rollback, so
"no contribution" holds exactly when the failing invocation leaves the
accumulator unchanged, as hypothesised here: then the final accumulator
equals that of a run without the failing repository. -/
theorem execute_with_state_error_isolation {S T : Type} (l1 l2 : List RepoInfo)
    (r0 : RepoInfo) (e : String) (init : S)
    (f : RepoInfo → S → S × Except String (Option T))
    (hf0 : ∀ s, f r0 s = (s, .error e)) :
    (execute_with_state (l1 ++ r0 :: l2) init f).1 =
      (execute_with_state (l1 ++ l2) init f).1 ∧
    (execute_with_state (l1 ++ r0 :: l2) init f).2 =
      (execute_with_state l1 init f).2 ++ [(r0.slug, e)] ++
        (execute_with_state l2 (execute_with_state l1 init f).1 f).2 ∧
    (execute_with_state (l1 ++ l2) init f).2 =
      (execute_with_state l1 init f).2 ++
        (execute_with_state l2 (execute_with_state l1 init f).1 f).2 := by
  unfold execute_with_state
  rw [List.foldl_append, List.foldl_append, List.foldl_cons]
  cases hA : l1.foldl (executeWithStateStep f) (init, ([] : List (String × String))) with
  | mk s1 d1 =>
    have hstep : executeWithStateStep f (s1, d1) r0 = (s1, d1 ++ [(r0.slug, e)]) := by
      show (match (f r0 s1).2 with
        | .ok _ => ((f r0 s1).1, d1)
        | .error e2 => ((f r0 s1).1, d1 ++ [(r0.slug, e2)])) = _
      rw [hf0 s1]
    rw [hstep, execute_with_state_acc_shift f l2 s1 (d1 ++ [(r0.slug, e)]),
      execute_with_state_acc_shift f l2 s1 d1]
    refine ⟨?_, ?_, ?_⟩ <;> simp

/-- Witness for the amended C8: the middle repository errors without
touching the accumulator; the other two each increment it. -/
theorem execute_with_state_error_isolation_witness :
    (∀ s : Nat, (fun (r : RepoInfo) (s : Nat) =>
        if r.slug = "o/b" then (s, (.error "boom" : Except String (Option Unit)))
        else (s + 1, .ok (some ()))) ⟨"/b", "o/b"⟩ s = (s, .error "boom")) ∧
    ((execute_with_state ([⟨"/a", "o/a"⟩] ++ ⟨"/b", "o/b"⟩ :: [⟨"/c", "o/c"⟩]) (0 : Nat)
        (fun (r : RepoInfo) (s : Nat) =>
          if r.slug = "o/b" then (s, (.error "boom" : Except String (Option Unit)))
          else (s + 1, .ok (some ())))).1 =
      (execute_with_state ([⟨"/a", "o/a"⟩] ++ [⟨"/c", "o/c"⟩]) (0 : Nat)
        (fun (r : RepoInfo) (s : Nat) =>
          if r.slug = "o/b" then (s, (.error "boom" : Except String (Option Unit)))
          else (s + 1, .ok (some ())))).1 ∧
    (execute_with_state ([⟨"/a", "o/a"⟩] ++ ⟨"/b", "o/b"⟩ :: [⟨"/c", "o/c"⟩]) (0 : Nat)
        (fun (r : RepoInfo) (s : Nat) =>
          if r.slug = "o/b" then (s, (.error "boom" : Except String (Option Unit)))
          else (s + 1, .ok (some ())))).2 =
      (execute_with_state [⟨"/a", "o/a"⟩] (0 : Nat)
        (fun (r : RepoInfo) (s : Nat) =>
          if r.slug = "o/b" then (s, (.error "boom" : Except String (Option Unit)))
          else (s + 1, .ok (some ())))).2 ++ [("o/b", "boom")] ++
        (execute_with_state [⟨"/c", "o/c"⟩]
          (execute_with_state [⟨"/a", "o/a"⟩] (0 : Nat)
            (fun (r : RepoInfo) (s : Nat) =>
              if r.slug = "o/b" then (s, (.error "boom" : Except String (Option Unit)))
              else (s + 1, .ok (some ())))).1
          (fun (r : RepoInfo) (s : Nat) =>
            if r.slug = "o/b" then (s, (.error "boom" : Except String (Option Unit)))
            else (s + 1, .ok (some ())))).2 ∧
    (execute_with_state ([⟨"/a", "o/a"⟩] ++ [⟨"/c", "o/c"⟩]) (0 : Nat)
        (fun (r : RepoInfo) (s : Nat) =>
          if r.slug = "o/b" then (s, (.error "boom" : Except String (Option Unit)))
          else (s + 1, .ok (some ())))).2 =
      (execute_with_state [⟨"/a", "o/a"⟩] (0 : Nat)
        (fun (r : RepoInfo) (s : Nat) =>
          if r.slug = "o/b" then (s, (.error "boom" : Except String (Option Unit)))
          else (s + 1, .ok (some ())))).2 ++
        (execute_with_state [⟨"/c", "o/c"⟩]
          (execute_with_state [⟨"/a", "o/a"⟩] (0 : Nat)
            (fun (r : RepoInfo) (s : Nat) =>
              if r.slug = "o/b" then (s, (.error "boom" : Except String (Option Unit)))
              else (s + 1, .ok (some ())))).1
          (fun (r : RepoInfo) (s : Nat) =>
            if r.slug = "o/b" then (s, (.error "boom" : Except String (Option Unit)))
            else (s + 1, .ok (some ())))).2) :=
  ⟨fun s => rfl,
   execute_with_state_error_isolation [⟨"/a", "o/a"⟩] [⟨"/c", "o/c"⟩]
     ⟨"/b", "o/b"⟩ "boom" 0
     (fun (r : RepoInfo) (s : Nat) =>
       if r.slug = "o/b" then (s, (.error "boom" : Except String (Option Unit)))
       else (s + 1, .ok (some ())))
     (fun s => rfl)⟩

/-! ## C6: behaviour of discovery when the origin URL does not parse -/

theorem repoInfoFromPath_ok (g : GitEnv) (hok : g.rev_parse_ok = true) :
    repoInfoFromPath g = .ok ⟨trimEndStr g.rev_parse_stdout,
      (parse_git_url (trimStr g.remote_url)).getD "unknown/unknown"⟩ := by
  unfold repoInfoFromPath find_repo_root_and_slug
  rw [hok]
  rfl

theorem repoInfoFromPath_err (g : GitEnv) (hng : g.rev_parse_ok = false) :
    repoInfoFromPath g = .error "Not inside a Git repository" := by
  unfold repoInfoFromPath find_repo_root_and_slug
  rw [hng]
  rfl

theorem discover_all_repos_cons (p : String) (ps : List String)
    (git : String → GitEnv) :
    discover_all_repos (p :: ps) git =
      match repoInfoFromPath (git p) with
      | .ok info => (info :: (discover_all_repos ps git).1,
          (discover_all_repos ps git).2)
      | .error e => ((discover_all_repos ps git).1,
          (p, e) :: (discover_all_repos ps git).2) := by
  unfold discover_all_repos
  rw [List.foldr_cons]

/-- Counterexample to C6: a repository root whose origin URL fails to
parse is neither excluded from the result set nor logged — it is
returned with the placeholder slug `unknown/unknown` and the diagnostic
list stays empty. -/
theorem discover_url_unparsable_counterexample :
    parse_git_url (trimStr "not-a-url") = none ∧
    discover_all_repos ["p"] (fun _ => ⟨true, "/r\n", "not-a-url"⟩) =
      ([⟨"/r", "unknown/unknown"⟩], []) :=
  ⟨rfl, rfl⟩

/-- C6 (amended): a discovered root whose origin URL fails to parse is
still included in the discovery result, with the placeholder slug
`unknown/unknown`, and no error is logged for it; a repository is
excluded and logged exactly when root resolution (`git rev-parse`)
fails, so the diagnostic count equals the number of rev-parse
failures. -/
theorem discover_all_repos_url_fallback (paths : List String)
    (git : String → GitEnv) (p : String) (hp : p ∈ paths)
    (hok : (git p).rev_parse_ok = true)
    (hparse : parse_git_url (trimStr (git p).remote_url) = none) :
    (⟨trimEndStr (git p).rev_parse_stdout, "unknown/unknown"⟩ : RepoInfo) ∈
      (discover_all_repos paths git).1 ∧
    (discover_all_repos paths git).2.length =
      (paths.filter (fun q => !(git q).rev_parse_ok)).length := by
  constructor
  · induction paths with
    | nil => cases hp
    | cons q qs ih =>
      rw [discover_all_repos_cons]
      rcases List.mem_cons.mp hp with hq | hq
      · subst hq
        rw [repoInfoFromPath_ok (git p) hok, hparse]
        exact List.mem_cons_self _ _
      · cases hg : repoInfoFromPath (git q) with
        | ok info => exact List.mem_cons_of_mem info (ih hq)
        | error e => exact ih hq
  · clear hp hok hparse
    induction paths with
    | nil => rfl
    | cons q qs ih =>
      rw [discover_all_repos_cons]
      cases hq : (git q).rev_parse_ok with
      | true =>
        rw [repoInfoFromPath_ok (git q) hq, List.filter_cons_of_neg (by simp [hq])]
        exact ih
      | false =>
        rw [repoInfoFromPath_err (git q) hq, List.filter_cons_of_pos (by simp [hq])]
        simp only [List.length_cons]
        rw [ih]

/-- Witness for the amended C6: two candidate roots, one with an
unparsable URL (kept, slug `unknown/unknown`), one failing `rev-parse`
(dropped and logged). -/
theorem discover_all_repos_url_fallback_witness :
    ("p" ∈ ["p", "q"]) ∧
    ((fun x => if x = "p" then (⟨true, "/r\n", "not-a-url"⟩ : GitEnv)
        else ⟨false, "", ""⟩) "p").rev_parse_ok = true ∧
    parse_git_url (trimStr ((fun x => if x = "p" then (⟨true, "/r\n", "not-a-url"⟩ : GitEnv)
        else ⟨false, "", ""⟩) "p").remote_url) = none ∧
    ((⟨trimEndStr ((fun x => if x = "p" then (⟨true, "/r\n", "not-a-url"⟩ : GitEnv)
          else ⟨false, "", ""⟩) "p").rev_parse_stdout, "unknown/unknown"⟩ : RepoInfo) ∈
      (discover_all_repos ["p", "q"]
        (fun x => if x = "p" then (⟨true, "/r\n", "not-a-url"⟩ : GitEnv)
          else ⟨false, "", ""⟩)).1 ∧
    (discover_all_repos ["p", "q"]
        (fun x => if x = "p" then (⟨true, "/r\n", "not-a-url"⟩ : GitEnv)
          else ⟨false, "", ""⟩)).2.length =
      (["p", "q"].filter (fun q =>
        !((fun x => if x = "p" then (⟨true, "/r\n", "not-a-url"⟩ : GitEnv)
            else ⟨false, "", ""⟩) q).rev_parse_ok)).length) :=
  ⟨by decide, rfl, rfl,
   discover_all_repos_url_fallback ["p", "q"]
     (fun x => if x = "p" then (⟨true, "/r\n", "not-a-url"⟩ : GitEnv)
       else ⟨false, "", ""⟩) "p" (by decide) rfl rfl⟩

/-! ## C7: deduplication by slug in discovery -/

/-- Reference form of the deduplication loop of `discover`: keep each
element whose slug has not been seen yet, first occurrence first. -/
def dedupFrom (seen : List String) : List RepoInfo → List RepoInfo
  | [] => []
  | x :: xs =>
    if x.slug ∈ seen then dedupFrom seen xs
    else x :: dedupFrom (x.slug :: seen) xs

theorem dedupFrom_cons (seen : List String) (x : RepoInfo) (xs : List RepoInfo) :
    dedupFrom seen (x :: xs) =
      if x.slug ∈ seen then dedupFrom seen xs
      else x :: dedupFrom (x.slug :: seen) xs := rfl

theorem dedupBySlug_go_eq :
    ∀ (l : List RepoInfo) (res : List RepoInfo) (seen : List String),
      (l.foldl (fun (acc : List RepoInfo × List String) info =>
        if info.slug ∈ acc.2 then acc
        else (acc.1 ++ [info], info.slug :: acc.2)) (res, seen)).1 =
      res ++ dedupFrom seen l := by
  intro l
  induction l with
  | nil =>
    intro res seen
    simp [dedupFrom]
  | cons x xs ih =>
    intro res seen
    rw [List.foldl_cons]
    show (xs.foldl (fun (acc : List RepoInfo × List String) info =>
        if info.slug ∈ acc.2 then acc
        else (acc.1 ++ [info], info.slug :: acc.2))
      (if x.slug ∈ seen then (res, seen)
       else (res ++ [x], x.slug :: seen))).1 = res ++ dedupFrom seen (x :: xs)
    by_cases hx : x.slug ∈ seen
    · rw [if_pos hx, ih res seen, dedupFrom_cons, if_pos hx]
    · rw [if_neg hx, ih (res ++ [x]) (x.slug :: seen), dedupFrom_cons,
        if_neg hx, List.append_assoc]
      rfl

theorem dedupBySlug_eq (l : List RepoInfo) : dedupBySlug l = dedupFrom [] l := by
  unfold dedupBySlug
  rw [dedupBySlug_go_eq l [] []]
  rfl

theorem not_mem_dedupFrom_of_seen :
    ∀ (l : List RepoInfo) (seen : List String) (y : RepoInfo),
      y.slug ∈ seen → y ∉ dedupFrom seen l := by
  intro l
  induction l with
  | nil =>
    intro seen y _
    simp [dedupFrom]
  | cons x xs ih =>
    intro seen y hy
    rw [dedupFrom_cons]
    by_cases hx : x.slug ∈ seen
    · rw [if_pos hx]
      exact ih seen y hy
    · rw [if_neg hx]
      intro hmem
      rcases List.mem_cons.mp hmem with he | he
      · subst he
        exact hx hy
      · exact ih (x.slug :: seen) y (List.mem_cons_of_mem x.slug hy) he

theorem mem_dedupFrom :
    ∀ (l : List RepoInfo) (seen : List String) (y : RepoInfo), y.slug ∉ seen →
      (y ∈ dedupFrom seen l ↔
        y ∈ l ∧ l.find? (fun z => z.slug == y.slug) = some y) := by
  intro l
  induction l with
  | nil =>
    intro seen y _
    simp [dedupFrom]
  | cons x xs ih =>
    intro seen y hy
    rw [dedupFrom_cons]
    by_cases hx : x.slug ∈ seen
    · rw [if_pos hx]
      have hxy : x.slug ≠ y.slug := by
        intro he
        rw [he] at hx
        exact hy hx
      have hpx : (x.slug == y.slug) = false := by simpa using hxy
      rw [List.find?_cons_of_neg xs (by simp [hpx]), ih seen y hy]
      constructor
      · rintro ⟨hm, hfind⟩
        exact ⟨List.mem_cons_of_mem x hm, hfind⟩
      · rintro ⟨hm, hfind⟩
        rcases List.mem_cons.mp hm with he | he
        · subst he
          exact absurd rfl hxy
        · exact ⟨he, hfind⟩
    · rw [if_neg hx]
      by_cases hxy : x.slug = y.slug
      · have hpx : (x.slug == y.slug) = true := by simpa using hxy
        rw [List.find?_cons_of_pos xs hpx]
        constructor
        · intro hmem
          rcases List.mem_cons.mp hmem with he | he
          · subst he
            exact ⟨List.mem_cons_self y xs, rfl⟩
          · exact absurd he (not_mem_dedupFrom_of_seen xs (x.slug :: seen) y
              (by rw [hxy]; exact List.mem_cons_self y.slug seen))
        · rintro ⟨_, hfind⟩
          have hxy2 : x = y := by
            injection hfind
          subst hxy2
          exact List.mem_cons_self x _
      · have hpx : (x.slug == y.slug) = false := by simpa using hxy
        rw [List.find?_cons_of_neg xs (by simp [hpx])]
        have hy2 : y.slug ∉ x.slug :: seen := by
          intro hmem
          rcases List.mem_cons.mp hmem with he | he
          · exact hxy he.symm
          · exact hy he
        constructor
        · intro hmem
          rcases List.mem_cons.mp hmem with he | he
          · subst he
            exact absurd rfl hxy
          · obtain ⟨hm, hfind⟩ := (ih (x.slug :: seen) y hy2).mp he
            exact ⟨List.mem_cons_of_mem x hm, hfind⟩
        · rintro ⟨hm, hfind⟩
          rcases List.mem_cons.mp hm with he | he
          · subst he
            exact absurd rfl hxy
          · exact List.mem_cons_of_mem x
              ((ih (x.slug :: seen) y hy2).mpr ⟨he, hfind⟩)

theorem dedupFrom_slug_nodup :
    ∀ (l : List RepoInfo) (seen : List String),
      ((dedupFrom seen l).map (fun r => r.slug)).Nodup ∧
      (∀ s ∈ seen, s ∉ (dedupFrom seen l).map (fun r => r.slug)) := by
  intro l
  induction l with
  | nil =>
    intro seen
    simp [dedupFrom]
  | cons x xs ih =>
    intro seen
    rw [dedupFrom_cons]
    by_cases hx : x.slug ∈ seen
    · rw [if_pos hx]
      exact ih seen
    · rw [if_neg hx]
      obtain ⟨ihn, ihs⟩ := ih (x.slug :: seen)
      refine ⟨?_, ?_⟩
      · rw [List.map_cons, List.nodup_cons]
        exact ⟨ihs x.slug (List.mem_cons_self x.slug seen), ihn⟩
      · intro t ht
        rw [List.map_cons]
        intro hmem
        rcases List.mem_cons.mp hmem with he | he
        · subst he
          exact hx ht
        · exact ihs t (List.mem_cons_of_mem x.slug ht) he

/-- The filesystem of the counterexample: the current directory holds
two clones `./a` and `./b`, both Git repositories. -/
def twoCloneFS : FS :=
  ⟨fun p => p == ".",
   fun p => p == "./a" || p == "./b",
   fun p => if p == "." then ["./a", "./b"] else []⟩

/-- The Git environment of the counterexample: both clones point their
origin at the same `o/r` repository. -/
def twoCloneGit : String → GitEnv := fun p =>
  if p == "./a" then ⟨true, "/a\n", "git@github.com:o/r.git"⟩
  else ⟨true, "/b\n", "git@github.com:o/r.git"⟩

/-- Counterexample to C7: with only directory paths (`.`), `discover`
performs no slug deduplication — two clones of the same repository both
appear in the result. -/
theorem discover_dedup_counterexample :
    discover twoCloneFS twoCloneGit ["."] =
      [⟨"/a", "o/r"⟩, ⟨"/b", "o/r"⟩] ∧
    (⟨"/a", "o/r"⟩ : RepoInfo) ≠ ⟨"/b", "o/r"⟩ ∧
    (⟨"/a", "o/r"⟩ : RepoInfo).slug = (⟨"/b", "o/r"⟩ : RepoInfo).slug :=
  ⟨rfl, by decide, rfl⟩

/-- C7 (amended): deduplication by slug, first seen wins, holds in the
smart-matching branch — whenever the input contains at least one bare
identifier, the result holds exactly the first matched repository of
each slug, and its slugs are duplicate-free.  The plain directory-scan
branch performs no deduplication (see the counterexample). -/
theorem discover_smart_dedup (fs : FS) (git : String → GitEnv)
    (paths : List String)
    (hid : paths.filter (fun p => ¬ isDirectoryPath fs p) ≠ []) :
    (∀ y, y ∈ discover fs git paths ↔
      y ∈ smartMatched fs git paths ∧
      (smartMatched fs git paths).find? (fun z => z.slug == y.slug) = some y) ∧
    ((discover fs git paths).map (fun r => r.slug)).Nodup := by
  have hbranch : discover fs git paths = dedupBySlug (smartMatched fs git paths) := by
    unfold discover
    rw [if_neg hid]
  rw [hbranch, dedupBySlug_eq]
  constructor
  · intro y
    exact mem_dedupFrom (smartMatched fs git paths) [] y (by simp)
  · exact (dedupFrom_slug_nodup (smartMatched fs git paths) []).1

/-- Witness for the amended C7: the bare identifier `r` matches both
clones of `o/r`; only the first survives deduplication. -/
theorem discover_smart_dedup_witness :
    (["r"].filter (fun p => ¬ isDirectoryPath twoCloneFS p) ≠ []) ∧
    ((∀ y, y ∈ discover twoCloneFS twoCloneGit ["r"] ↔
      y ∈ smartMatched twoCloneFS twoCloneGit ["r"] ∧
      (smartMatched twoCloneFS twoCloneGit ["r"]).find?
        (fun z => z.slug == y.slug) = some y) ∧
    ((discover twoCloneFS twoCloneGit ["r"]).map (fun r => r.slug)).Nodup) :=
  ⟨by decide, discover_smart_dedup twoCloneFS twoCloneGit ["r"] (by decide)⟩

/-! ## C9: the worked scenario of the specification -/

/-- C9: for CODEOWNERS content `* @alice\n/docs/ @bob` and working-tree
files `README.md`, `docs/x.md`, `src/main.py`: only `src/main.py` is a
code file (the allow-list excludes `.md`); it is covered by the pattern
`/` — the normalization of `*` — whose owner is `alice`; the computed
status is `owned`; and the built mapping is `/ ↦ alice`, `/docs/ ↦ bob`
in that key order. -/
theorem scenario_wildcard_owned :
    (["README.md", "docs/x.md", "src/main.py"].filter is_code_file) =
      ["src/main.py"] ∧
    parseCodeowners "* @alice\n/docs/ @bob" =
      [("/", ["alice"]), ("/docs/", ["bob"])] ∧
    strStartsWith "/src/main.py" "/" = true ∧
    mapGet [("/", ["alice"]), ("/docs/", ["bob"])] "/" = some ["alice"] ∧
    determine_unowned_paths [("/", ["alice"]), ("/docs/", ["bob"])]
      ["src/main.py"] = [] ∧
    try_process_repo (.ok "o/r") (some (.ok "* @alice\n/docs/ @bob"))
        ["README.md", "docs/x.md", "src/main.py"] [] none =
      .ok (some ("o/r", "owned",
        [("paths", TopVal.pmap [("/", .str "alice"), ("/docs/", .str "bob")])])) ∧
    build_repo_mapping [("/", ["alice"]), ("/docs/", ["bob"])] [] =
      [("/", .str "alice"), ("/docs/", .str "bob")] :=
  ⟨by decide, by decide, rfl, rfl, by decide, rfl, by decide⟩

end GitTools